import Mathlib

/-!
Verification of the root-finding engine of `fmpz_mod_poly_factor/roots.c`
(FLINT).  Polynomials over the prime field `ZMod p` are embedded shallowly as
coefficient lists (index 0 = constant term, no trailing zeros), mirroring the
`fmpz_mod_poly` representation.  The two functions of the source file,
`fmpz_mod_poly_roots` and `_fmpz_mod_poly_push_roots`, are translated into
executable Lean functions; the external collaborators the source calls
(polynomial gcd, modular exponentiation, squarefree factorization and the
randomized Rabin splitter) are not part of the source file and are modelled
from the specification, either as executable definitions or as function
parameters constrained by the contract the specification states for them.
-/

namespace FlintRoots

open Polynomial

variable {p : ℕ}

/-- Coefficient-list polynomials over `ZMod p`, constant term first. -/
abbrev Poly (p : ℕ) := List (ZMod p)

/-- Strip trailing zero coefficients, producing the canonical representation
used by `fmpz_mod_poly` (zero polynomial = empty list). -/
def trim : Poly p → Poly p
  | [] => []
  | c :: t =>
    match trim t with
    | [] => if c = 0 then [] else [c]
    | d :: t2 => c :: d :: t2

/-- A list is in canonical form when trimming does not change it. -/
def Normalized (f : Poly p) : Prop := trim f = f

instance (f : Poly p) : Decidable (Normalized f) := by
  unfold Normalized; infer_instance

/-- Leading coefficient (0 for the zero polynomial). -/
def lead : Poly p → ZMod p
  | [] => 0
  | [c] => c
  | _ :: c :: t => lead (c :: t)

/-- The list is monic: its leading coefficient is 1. -/
def MonicL (f : Poly p) : Prop := lead f = 1

instance (f : Poly p) : Decidable (MonicL f) := by
  unfold MonicL; infer_instance

/-- Degree as the source computes it (`length - 1`, so -1 for zero). -/
def degI (f : Poly p) : ℤ := (f.length : ℤ) - 1

/-- Coefficient-wise sum, no trimming. -/
def addAux : Poly p → Poly p → Poly p
  | [], g => g
  | f, [] => f
  | a :: f, b :: g => (a + b) :: addAux f g

/-- Polynomial addition. -/
def polyAdd (f g : Poly p) : Poly p := trim (addAux f g)

/-- Polynomial subtraction. -/
def polySub (f g : Poly p) : Poly p := trim (addAux f (g.map Neg.neg))

/-- Scalar multiple (trimmed, since the scalar may be zero). -/
def polySmul (c : ZMod p) (f : Poly p) : Poly p := trim (f.map fun x => c * x)

/-- Product, no trimming. -/
def mulAux : Poly p → Poly p → Poly p
  | [], _ => []
  | a :: f, g => addAux (g.map fun x => a * x) (0 :: mulAux f g)

/-- Polynomial multiplication. -/
def polyMul (f g : Poly p) : Poly p := trim (mulAux f g)

/-- Horner evaluation, as `fmpz_mod_poly_evaluate_fmpz` computes it. -/
def evalL (x : ZMod p) (f : Poly p) : ZMod p :=
  f.foldr (fun c acc => c + x * acc) 0

/-- Interpretation of a coefficient list as a `Polynomial` (proof-side
semantic bridge; the executable code works on the lists themselves). -/
noncomputable def toP : Poly p → Polynomial (ZMod p)
  | [] => 0
  | c :: t => C c + X * toP t

/-- Monic normalization, as `fmpz_mod_poly_make_monic` (multiply by the
inverse of the leading coefficient). -/
def makeMonic (f : Poly p) : Poly p := f.map fun x => (lead f)⁻¹ * x

@[simp] theorem toP_nil : toP ([] : Poly p) = 0 := rfl

@[simp] theorem toP_cons (c : ZMod p) (t : Poly p) :
    toP (c :: t) = C c + X * toP t := by simp [toP]

theorem toP_trim (f : Poly p) : toP (trim f) = toP f := by
  induction f with
  | nil => rfl
  | cons c t ih =>
    simp only [trim]
    rcases h : trim t with - | ⟨d, t2⟩
    · rw [h] at ih
      by_cases hc : c = 0 <;> simp [hc, ← ih]
    · rw [h] at ih
      simp [← ih]

theorem toP_addAux (f g : Poly p) : toP (addAux f g) = toP f + toP g := by
  induction f generalizing g with
  | nil => simp [addAux]
  | cons a f ih =>
    cases g with
    | nil => simp [addAux]
    | cons b g =>
      simp only [addAux, toP_cons, ih, C_add]
      ring

theorem toP_map_neg (f : Poly p) : toP (f.map Neg.neg) = -toP f := by
  induction f with
  | nil => simp
  | cons a f ih => simp [ih]; ring

theorem toP_map_mul (c : ZMod p) (f : Poly p) :
    toP (f.map fun x => c * x) = C c * toP f := by
  induction f with
  | nil => simp
  | cons a f ih => simp [ih]; ring

theorem toP_polyAdd (f g : Poly p) : toP (polyAdd f g) = toP f + toP g := by
  rw [polyAdd, toP_trim, toP_addAux]

theorem toP_polySub (f g : Poly p) : toP (polySub f g) = toP f - toP g := by
  rw [polySub, toP_trim, toP_addAux, toP_map_neg]; ring

theorem toP_polySmul (c : ZMod p) (f : Poly p) :
    toP (polySmul c f) = C c * toP f := by
  rw [polySmul, toP_trim, toP_map_mul]

theorem toP_mulAux (f g : Poly p) : toP (mulAux f g) = toP f * toP g := by
  induction f with
  | nil => simp [mulAux]
  | cons a f ih =>
    simp only [mulAux, toP_addAux, toP_map_mul, toP_cons, ih, map_zero]
    ring

theorem toP_polyMul (f g : Poly p) : toP (polyMul f g) = toP f * toP g := by
  rw [polyMul, toP_trim, toP_mulAux]

theorem evalL_toP (x : ZMod p) (f : Poly p) : evalL x f = (toP f).eval x := by
  induction f with
  | nil => simp [evalL]
  | cons c t ih =>
    simp only [evalL, List.foldr] at ih ⊢
    rw [ih]
    simp [toP_cons]
    try ring

theorem trim_cons_nil {c : ZMod p} {t : Poly p} (h : trim t = []) :
    trim (c :: t) = if c = 0 then [] else [c] := by
  simp [trim, h]

theorem trim_cons_cons {c d : ZMod p} {t t2 : Poly p} (h : trim t = d :: t2) :
    trim (c :: t) = c :: d :: t2 := by
  simp [trim, h]

theorem trim_trim (f : Poly p) : trim (trim f) = trim f := by
  induction f with
  | nil => rfl
  | cons c t ih =>
    rcases h : trim t with - | ⟨d, t2⟩
    · rw [trim_cons_nil h]
      by_cases hc : c = 0
      · rw [if_pos hc]
        rfl
      · rw [if_neg hc, trim_cons_nil (show trim ([] : Poly p) = [] from rfl),
          if_neg hc]
    · rw [h] at ih
      rw [trim_cons_cons h, trim_cons_cons ih]

theorem normalized_trim (f : Poly p) : Normalized (trim f) := trim_trim f

theorem normalized_nil : Normalized ([] : Poly p) := rfl

theorem normalized_cons {c : ZMod p} {t : Poly p} (h : Normalized (c :: t)) :
    Normalized t ∧ (t = [] → c ≠ 0) := by
  have h' : trim (c :: t) = c :: t := h
  rcases ht : trim t with - | ⟨d, t2⟩
  · rw [trim_cons_nil ht] at h'
    by_cases hc : c = 0
    · rw [if_pos hc] at h'
      exact List.noConfusion h'
    · rw [if_neg hc] at h'
      injection h' with h1 h2
      have hT : t = [] := h2.symm
      subst hT
      exact ⟨normalized_nil, fun _ => hc⟩
  · rw [trim_cons_cons ht] at h'
    injection h' with h1 h2
    have hT : t = d :: t2 := h2.symm
    subst hT
    exact ⟨ht, fun he => List.noConfusion he⟩

theorem lead_cons (c : ZMod p) (t : Poly p) :
    lead (c :: t) = if t = [] then c else lead t := by
  cases t with
  | nil => simp [lead]
  | cons d t2 => simp [lead]

theorem exists_ne_zero_of_normalized {f : Poly p} (hn : Normalized f)
    (hne : f ≠ []) : ∃ x : ZMod p, x ≠ 0 := by
  induction f with
  | nil => exact absurd rfl hne
  | cons c t ih =>
    obtain ⟨hnt, hc0⟩ := normalized_cons hn
    cases t with
    | nil => exact ⟨c, hc0 rfl⟩
    | cons d t2 => exact ih hnt (by simp)

theorem toP_deg {f : Poly p} (hn : Normalized f) (hne : f ≠ []) :
    toP f ≠ 0 ∧ (toP f).degree = ((f.length - 1 : ℕ) : WithBot ℕ) ∧
      (toP f).leadingCoeff = lead f := by
  induction f with
  | nil => exact absurd rfl hne
  | cons c t ih =>
    obtain ⟨hnt, hc0⟩ := normalized_cons hn
    cases t with
    | nil =>
      have hc : c ≠ 0 := hc0 rfl
      have hC : toP [c] = C c := by simp [toP_cons]
      refine ⟨?_, ?_, ?_⟩
      · rw [hC]
        intro hz
        exact hc (by rw [← C_0] at hz; exact C_injective hz)
      · rw [hC]
        simp [degree_C hc]
      · rw [hC]
        simp [lead]
    | cons d t2 =>
      obtain ⟨x, hx⟩ := exists_ne_zero_of_normalized hnt (by simp)
      haveI : Nontrivial (ZMod p) := nontrivial_of_ne x 0 hx
      obtain ⟨h0, hdeg, hlc⟩ := ih hnt (by simp)
      have hld : lead (d :: t2) ≠ 0 := by
        rw [← hlc]
        exact leadingCoeff_ne_zero.mpr h0
      have hlcX : X.leadingCoeff * (toP (d :: t2)).leadingCoeff ≠ 0 := by
        rw [leadingCoeff_X, one_mul]
        exact leadingCoeff_ne_zero.mpr h0
      have hlen1 : 1 + ((d :: t2).length - 1) = (d :: t2).length := by
        simp only [List.length_cons]
        omega
      have hXdeg : (X * toP (d :: t2)).degree =
          (((d :: t2).length : ℕ) : WithBot ℕ) := by
        rw [degree_mul' hlcX, degree_X, hdeg, ← Nat.cast_one, ← Nat.cast_add,
          hlen1]
      have hlt : (C c).degree < (X * toP (d :: t2)).degree := by
        rw [hXdeg]
        calc (C c).degree ≤ 0 := degree_C_le
        _ < (((d :: t2).length : ℕ) : WithBot ℕ) := by
              exact_mod_cast WithBot.coe_lt_coe.mpr (by simp)
      have hrhs : lead (c :: d :: t2) = lead (d :: t2) := by
        rw [lead_cons, if_neg (by simp : ¬((d :: t2 : Poly p) = []))]
      have hlcf : (toP (c :: d :: t2)).leadingCoeff = lead (c :: d :: t2) := by
        rw [hrhs, toP_cons, leadingCoeff_add_of_degree_lt hlt,
          leadingCoeff_mul' hlcX, leadingCoeff_X, one_mul, hlc]
      refine ⟨?_, ?_, hlcf⟩
      · intro hz
        rw [hz, leadingCoeff_zero, hrhs] at hlcf
        exact hld hlcf.symm
      · rw [toP_cons, degree_add_eq_right_of_degree_lt hlt, hXdeg]
        simp

theorem toP_ne_zero {f : Poly p} (hn : Normalized f) (hne : f ≠ []) :
    toP f ≠ 0 := (toP_deg hn hne).1

theorem natDegree_toP {f : Poly p} (hn : Normalized f) (hne : f ≠ []) :
    (toP f).natDegree = f.length - 1 := by
  have h := (toP_deg hn hne).2.1
  exact natDegree_eq_of_degree_eq_some h

theorem leadingCoeff_toP {f : Poly p} (hn : Normalized f) (hne : f ≠ []) :
    (toP f).leadingCoeff = lead f := (toP_deg hn hne).2.2

theorem lead_ne_zero {f : Poly p} (hn : Normalized f) (hne : f ≠ []) :
    lead f ≠ 0 := by
  rw [← leadingCoeff_toP hn hne]
  exact leadingCoeff_ne_zero.mpr (toP_ne_zero hn hne)

theorem toP_eq_zero_iff {f : Poly p} : toP f = 0 ↔ trim f = [] := by
  constructor
  · intro h
    by_contra hne
    exact toP_ne_zero (normalized_trim f) hne (by rw [toP_trim]; exact h)
  · intro h
    rw [← toP_trim, h, toP_nil]

theorem length_toP {f : Poly p} (hn : Normalized f) (hne : f ≠ []) :
    f.length = (toP f).natDegree + 1 := by
  rw [natDegree_toP hn hne]
  have : 1 ≤ f.length := by
    cases f with
    | nil => exact absurd rfl hne
    | cons a t => simp
  omega

theorem monicL_toP {f : Poly p} (hn : Normalized f) (hne : f ≠ [])
    (hm : MonicL f) : (toP f).Monic := by
  unfold Polynomial.Monic
  rw [leadingCoeff_toP hn hne]
  exact hm

theorem natDegree_toP_lt_length {f : Poly p} (hn : Normalized f) :
    f = [] ∨ f.length = (toP f).natDegree + 1 := by
  by_cases hne : f = []
  · exact Or.inl hne
  · exact Or.inr (length_toP hn hne)

theorem lead_map_mul (m : ZMod p) (f : Poly p) (hne : f ≠ []) :
    lead (f.map fun x => m * x) = m * lead f := by
  induction f with
  | nil => exact absurd rfl hne
  | cons c t ih =>
    cases t with
    | nil => simp [lead]
    | cons d t2 =>
      rw [List.map_cons, lead_cons, lead_cons,
        if_neg (by simp : ¬((d :: t2 : Poly p) = [])),
        if_neg (by simp : ¬(((d :: t2 : Poly p).map fun x => m * x) = []))]
      exact ih (by simp)

theorem toP_makeMonic (f : Poly p) :
    toP (makeMonic f) = C (lead f)⁻¹ * toP f := toP_map_mul _ f

@[simp] theorem makeMonic_length (f : Poly p) :
    (makeMonic f).length = f.length := List.length_map f _

theorem makeMonic_ne_nil {f : Poly p} (hne : f ≠ []) : makeMonic f ≠ [] := by
  intro h
  have := congrArg List.length h
  rw [makeMonic_length] at this
  exact hne (List.eq_nil_of_length_eq_zero this)

theorem normalized_map_unit [Fact p.Prime] {u : ZMod p} (hu : u ≠ 0)
    {f : Poly p} (hn : Normalized f) : Normalized (f.map fun x => u * x) := by
  induction f with
  | nil => exact normalized_nil
  | cons c t ih =>
    obtain ⟨hnt, hc0⟩ := normalized_cons hn
    cases t with
    | nil =>
      have hc : c ≠ 0 := hc0 rfl
      have : u * c ≠ 0 := mul_ne_zero hu hc
      show trim [u * c] = [u * c]
      rw [trim_cons_nil (show trim ([] : Poly p) = [] from rfl), if_neg this]
    | cons d t2 =>
      have hmt := ih hnt
      have hne2 : ((d :: t2 : Poly p).map fun x => u * x) ≠ [] := by simp
      show trim ((u * c) :: (d :: t2).map fun x => u * x) = _
      rcases hmap : ((d :: t2 : Poly p).map fun x => u * x) with - | ⟨e, t3⟩
      · exact absurd hmap hne2
      · rw [hmap] at hmt
        exact trim_cons_cons (hmap ▸ hmt)

theorem normalized_makeMonic [Fact p.Prime] {f : Poly p}
    (hn : Normalized f) : Normalized (makeMonic f) := by
  by_cases hne : f = []
  · rw [hne]
    exact normalized_nil
  · exact normalized_map_unit (inv_ne_zero (lead_ne_zero hn hne)) hn

theorem monicL_makeMonic [Fact p.Prime] {f : Poly p} (hn : Normalized f)
    (hne : f ≠ []) : MonicL (makeMonic f) := by
  unfold MonicL makeMonic
  rw [lead_map_mul _ _ hne]
  exact inv_mul_cancel₀ (lead_ne_zero hn hne)

theorem makeMonic_assoc [Fact p.Prime] {f : Poly p} (hn : Normalized f)
    (hne : f ≠ []) : Associated (toP f) (toP (makeMonic f)) := by
  rw [toP_makeMonic]
  obtain ⟨u, hu⟩ :=
    isUnit_C.mpr (IsUnit.mk0 _ (inv_ne_zero (lead_ne_zero hn hne)))
  refine ⟨u, ?_⟩
  rw [hu, mul_comm]

/-- Long-division step: cancel the top coefficient of `r` against a shifted
multiple of `g`. -/
def pmodStep (g r : Poly p) : Poly p :=
  polySub r
    (polySmul (lead r * (lead g)⁻¹) (List.replicate (r.length - g.length) 0 ++ g))

theorem toP_replicate_append (k : ℕ) (g : Poly p) :
    toP (List.replicate k 0 ++ g) = X ^ k * toP g := by
  induction k with
  | zero => simp
  | succ n ih =>
    rw [List.replicate_succ, List.cons_append, toP_cons, ih, pow_succ]
    simp
    ring

theorem toP_pmodStep (g r : Poly p) :
    toP (pmodStep g r) =
      toP r - C (lead r * (lead g)⁻¹) * (X ^ (r.length - g.length) * toP g) := by
  unfold pmodStep
  rw [toP_polySub, toP_polySmul, toP_replicate_append]

theorem normalized_pmodStep (g r : Poly p) : Normalized (pmodStep g r) :=
  normalized_trim _

theorem natDegree_length_le {f : Poly p} (hn : Normalized f) :
    (toP f).natDegree + 1 ≤ f.length ∨ f = [] := by
  rcases natDegree_toP_lt_length hn with h | h
  · exact Or.inr h
  · exact Or.inl (le_of_eq h.symm)

theorem pmodStep_length [Fact p.Prime] {g r : Poly p} (hng : Normalized g)
    (hgne : g ≠ []) (hnr : Normalized r) (hge : g.length ≤ r.length) :
    (pmodStep g r).length < r.length := by
  have hg1 : 1 ≤ g.length := by
    cases g with
    | nil => exact absurd rfl hgne
    | cons a t => simp
  have hrne : r ≠ [] := by
    intro h
    rw [h] at hge
    simp only [List.length_nil] at hge
    omega
  have hG := toP_deg hng hgne
  have hR := toP_deg hnr hrne
  set c : ZMod p := lead r * (lead g)⁻¹ with hc
  have hcne : c ≠ 0 :=
    mul_ne_zero (lead_ne_zero hnr hrne) (inv_ne_zero (lead_ne_zero hng hgne))
  set k : ℕ := r.length - g.length with hk
  set B : Polynomial (ZMod p) := C c * (X ^ k * toP g) with hB
  have hBne : B ≠ 0 := by
    apply mul_ne_zero (C_ne_zero.mpr hcne)
    exact mul_ne_zero (pow_ne_zero _ X_ne_zero) hG.1
  have hBdeg : B.natDegree = r.length - 1 := by
    rw [hB, natDegree_mul (C_ne_zero.mpr hcne)
        (mul_ne_zero (pow_ne_zero _ X_ne_zero) hG.1),
      natDegree_mul (pow_ne_zero _ X_ne_zero) hG.1, natDegree_C,
      natDegree_X_pow, natDegree_toP hng hgne]
    omega
  have hRdeg : (toP r).natDegree = r.length - 1 := natDegree_toP hnr hrne
  have hdegeq : (toP r).degree = B.degree := by
    rw [degree_eq_natDegree hR.1, degree_eq_natDegree hBne, hRdeg, hBdeg]
  have hlceq : (toP r).leadingCoeff = B.leadingCoeff := by
    rw [hB, leadingCoeff_mul, leadingCoeff_mul, leadingCoeff_C,
      leadingCoeff_X_pow, leadingCoeff_toP hnr hrne, leadingCoeff_toP hng hgne,
      one_mul, hc, mul_assoc, inv_mul_cancel₀ (lead_ne_zero hng hgne), mul_one]
  have hsub : (toP r - B).degree < (toP r).degree :=
    degree_sub_lt hdegeq hR.1 hlceq
  have hstep : toP (pmodStep g r) = toP r - B := by
    rw [toP_pmodStep, hB, hc, hk]
  by_cases hz : pmodStep g r = []
  · rw [hz]
    simp only [List.length_nil]
    omega
  · have hns := normalized_pmodStep g r
    have hlen := length_toP hns hz
    have hsne : toP (pmodStep g r) ≠ 0 := toP_ne_zero hns hz
    rw [hstep] at hlen hsne
    rw [degree_eq_natDegree hsne, degree_eq_natDegree hR.1, hRdeg] at hsub
    have := Nat.cast_lt.mp (WithBot.coe_lt_coe.mp hsub)
    omega

/-- Fuelled long division by a polynomial with invertible leading
coefficient (the quotient and the remainder are accumulated explicitly).
Modelled from the spec: models the external exact division / remainder
operations of the modular-polynomial arithmetic layer. -/
def pdivModAux (g : Poly p) : ℕ → Poly p → Poly p → Poly p × Poly p
  | 0, q, r => (q, r)
  | fuel + 1, q, r =>
    if r.length < g.length then (q, r)
    else
      pdivModAux g fuel
        (polyAdd q
          (List.replicate (r.length - g.length) 0 ++ [lead r * (lead g)⁻¹]))
        (pmodStep g r)

/-- Division with remainder. Modelled from the spec: division of the
external polynomial layer. -/
def pdivMod (f g : Poly p) : Poly p × Poly p := pdivModAux g f.length [] f

/-- Remainder of polynomial division. Modelled from the spec. -/
def pmod (f g : Poly p) : Poly p := (pdivMod f g).2

/-- Quotient of polynomial division. Modelled from the spec. -/
def pdiv (f g : Poly p) : Poly p := (pdivMod f g).1

theorem pdivModAux_zero (g q r : Poly p) : pdivModAux g 0 q r = (q, r) := rfl

theorem pdivModAux_succ_lt {g r : Poly p} (n : ℕ) (q : Poly p)
    (h : r.length < g.length) : pdivModAux g (n + 1) q r = (q, r) := by
  unfold pdivModAux
  rw [if_pos h]

theorem pdivModAux_succ_ge {g r : Poly p} (n : ℕ) (q : Poly p)
    (h : ¬r.length < g.length) :
    pdivModAux g (n + 1) q r =
      pdivModAux g n
        (polyAdd q
          (List.replicate (r.length - g.length) 0 ++ [lead r * (lead g)⁻¹]))
        (pmodStep g r) := by
  unfold pdivModAux
  rw [if_neg h]
  cases n <;> rfl

theorem pdivModAux_spec [Fact p.Prime] {g : Poly p} (hng : Normalized g)
    (hgne : g ≠ []) :
    ∀ fuel q r, Normalized q → Normalized r → r.length ≤ fuel →
      Normalized (pdivModAux g fuel q r).1 ∧
      Normalized (pdivModAux g fuel q r).2 ∧
      (pdivModAux g fuel q r).2.length < g.length ∧
      toP (pdivModAux g fuel q r).1 * toP g + toP (pdivModAux g fuel q r).2 =
        toP q * toP g + toP r := by
  have hg1 : 1 ≤ g.length := by
    cases g with
    | nil => exact absurd rfl hgne
    | cons a t => simp
  intro fuel
  induction fuel with
  | zero =>
    intro q r hq hr hle
    have hr0 : r = [] := List.eq_nil_of_length_eq_zero (Nat.le_zero.mp hle)
    subst hr0
    rw [pdivModAux_zero]
    exact ⟨hq, normalized_nil, by simpa using hg1, rfl⟩
  | succ n ih =>
    intro q r hq hr hle
    by_cases hlt : r.length < g.length
    · rw [pdivModAux_succ_lt n q hlt]
      exact ⟨hq, hr, hlt, rfl⟩
    · rw [pdivModAux_succ_ge n q hlt]
      have hge : g.length ≤ r.length := Nat.le_of_not_lt hlt
      have hstepl := pmodStep_length hng hgne hr hge
      obtain ⟨h1, h2, h3, h4⟩ := ih
        (polyAdd q
          (List.replicate (r.length - g.length) 0 ++ [lead r * (lead g)⁻¹]))
        (pmodStep g r) (normalized_trim _) (normalized_pmodStep g r)
        (by omega)
      refine ⟨h1, h2, h3, ?_⟩
      rw [h4, toP_polyAdd, toP_replicate_append, toP_pmodStep]
      have hC1 : toP [lead r * (lead g)⁻¹] = C (lead r * (lead g)⁻¹) := by
        simp
      rw [hC1]
      ring

theorem pdivMod_spec [Fact p.Prime] {f g : Poly p} (hnf : Normalized f)
    (hng : Normalized g) (hgne : g ≠ []) :
    Normalized (pdiv f g) ∧ Normalized (pmod f g) ∧
      (pmod f g).length < g.length ∧
      toP (pdiv f g) * toP g + toP (pmod f g) = toP f := by
  have h := pdivModAux_spec hng hgne f.length [] f normalized_nil hnf le_rfl
  refine ⟨h.1, h.2.1, h.2.2.1, ?_⟩
  have := h.2.2.2
  simpa using this

theorem normalized_single {c : ZMod p} (hc : c ≠ 0) : Normalized [c] := by
  show trim [c] = [c]
  rw [trim_cons_nil (show trim ([] : Poly p) = [] from rfl), if_neg hc]

theorem normalized_pair {c d : ZMod p} (hd : d ≠ 0) : Normalized [c, d] := by
  show trim [c, d] = [c, d]
  exact trim_cons_cons (normalized_single hd)

/-- Monic Euclidean gcd with explicit fuel. Modelled from the spec: models
the external exact-GCD operation (`fmpz_mod_poly_gcd`), which returns a monic
gcd (or zero for two zero inputs). -/
def pgcdAux : ℕ → Poly p → Poly p → Poly p
  | 0, f, _ => makeMonic f
  | fuel + 1, f, g => if g = [] then makeMonic f else pgcdAux fuel g (pmod f g)

/-- Monic polynomial gcd. Modelled from the spec: the external exact-GCD
collaborator. -/
def pgcd (f g : Poly p) : Poly p := pgcdAux (g.length + 1) f g

theorem makeMonic_dvd_self [Fact p.Prime] {f : Poly p} (hn : Normalized f) :
    toP (makeMonic f) ∣ toP f ∧ toP f ∣ toP (makeMonic f) := by
  constructor
  · by_cases hfe : f = []
    · subst hfe
      simp [makeMonic]
    · rw [toP_makeMonic]
      have hu : IsUnit (C ((lead f)⁻¹ : ZMod p)) := by
        apply isUnit_C.mpr
        apply IsUnit.mk0
        exact inv_ne_zero (lead_ne_zero hn hfe)
      exact (IsUnit.mul_left_dvd hu).mpr dvd_rfl
  · rw [toP_makeMonic]
    exact Dvd.dvd.mul_left dvd_rfl _

theorem pgcdAux_spec [Fact p.Prime] :
    ∀ (fuel : ℕ) (f g : Poly p), Normalized f → Normalized g → g.length < fuel →
      Normalized (pgcdAux fuel f g) ∧
      toP (pgcdAux fuel f g) ∣ toP f ∧
      toP (pgcdAux fuel f g) ∣ toP g ∧
      (∀ u : Polynomial (ZMod p),
        u ∣ toP f → u ∣ toP g → u ∣ toP (pgcdAux fuel f g)) ∧
      (f ≠ [] ∨ g ≠ [] → MonicL (pgcdAux fuel f g) ∧ pgcdAux fuel f g ≠ []) := by
  intro fuel
  induction fuel with
  | zero =>
    intro f g hf hg hlt
    omega
  | succ n ih =>
    intro f g hf hg hlt
    by_cases hgz : g = []
    · subst hgz
      show Normalized (makeMonic f) ∧ _
      refine ⟨normalized_makeMonic hf, (makeMonic_dvd_self hf).1, ?_, ?_, ?_⟩
      · simp
      · intro u hu h0
        exact hu.trans (makeMonic_dvd_self hf).2
      · rintro (hfe | hge)
        · exact ⟨monicL_makeMonic hf hfe, makeMonic_ne_nil hfe⟩
        · exact absurd rfl hge
    · have heq : pgcdAux (n + 1) f g = pgcdAux n g (pmod f g) := by
        unfold pgcdAux
        rw [if_neg hgz]
        cases n <;> rfl
      obtain ⟨hq, hr, hrl, hdiv⟩ := pdivMod_spec hf hg hgz
      obtain ⟨h1, h2, h3, h4, h5⟩ := ih g (pmod f g) hg hr (by omega)
      rw [heq]
      refine ⟨h1, ?_, h2, ?_, fun _ => h5 (Or.inl hgz)⟩
      · rw [← hdiv]
        exact dvd_add (h2.mul_left _) h3
      · intro u huf hug
        refine h4 u hug ?_
        have : toP (pmod f g) = toP f - toP (pdiv f g) * toP g := by
          rw [← hdiv]
          ring
        rw [this]
        exact dvd_sub huf (hug.mul_left _)

theorem pgcd_spec [Fact p.Prime] {f g : Poly p} (hf : Normalized f)
    (hg : Normalized g) :
    Normalized (pgcd f g) ∧
    toP (pgcd f g) ∣ toP f ∧
    toP (pgcd f g) ∣ toP g ∧
    (∀ u : Polynomial (ZMod p), u ∣ toP f → u ∣ toP g → u ∣ toP (pgcd f g)) ∧
    (f ≠ [] ∨ g ≠ [] → MonicL (pgcd f g) ∧ pgcd f g ≠ []) :=
  pgcdAux_spec (g.length + 1) f g hf hg (by omega)

/-- Binary-exponentiation computation of `x^e mod f`. Modelled from the
spec: models the chain reverse / Newton power-series inverse /
`powmod_fmpz_binexp_preinv` of the source, whose net effect is the modular
power `x^halfExponent mod f`. -/
def xPowMod (e : ℕ) (f : Poly p) : Poly p :=
  if h : e = 0 then pmod [1] f
  else
    let s := pmod (polyMul (xPowMod (e / 2) f) (xPowMod (e / 2) f)) f
    if e % 2 = 1 then pmod (polyMul s [0, 1]) f else s
termination_by e
decreasing_by
  all_goals exact Nat.div_lt_self (Nat.pos_of_ne_zero h) Nat.one_lt_two

theorem xPowMod_zero (f : Poly p) : xPowMod 0 f = pmod [1] f := by
  unfold xPowMod
  rw [dif_pos rfl]

theorem xPowMod_pos_odd (e : ℕ) (f : Poly p) (h : ¬e = 0) (hp : e % 2 = 1) :
    xPowMod e f =
      pmod (polyMul (pmod (polyMul (xPowMod (e / 2) f) (xPowMod (e / 2) f)) f)
        [0, 1]) f := by
  conv_lhs => unfold xPowMod
  rw [dif_neg h]
  simp only [if_pos hp]

theorem xPowMod_pos_even (e : ℕ) (f : Poly p) (h : ¬e = 0) (hp : ¬e % 2 = 1) :
    xPowMod e f = pmod (polyMul (xPowMod (e / 2) f) (xPowMod (e / 2) f)) f := by
  conv_lhs => unfold xPowMod
  rw [dif_neg h]
  simp only [if_neg hp]

theorem xPowMod_spec [Fact p.Prime] {f : Poly p} (hnf : Normalized f)
    (hfne : f ≠ []) :
    ∀ e : ℕ, Normalized (xPowMod e f) ∧ (xPowMod e f).length < f.length ∧
      ∃ q : Polynomial (ZMod p),
        (X : Polynomial (ZMod p)) ^ e = q * toP f + toP (xPowMod e f) := by
  intro e
  induction e using Nat.strong_induction_on with
  | _ e ih =>
    by_cases h0 : e = 0
    · subst h0
      have h1 : Normalized ([1] : Poly p) := normalized_single one_ne_zero
      obtain ⟨hq, hr, hrl, hdiv⟩ := pdivMod_spec h1 hnf hfne
      rw [xPowMod_zero]
      refine ⟨hr, hrl, toP (pdiv [1] f), ?_⟩
      rw [pow_zero, hdiv]
      simp [toP_cons]
    · obtain ⟨hhn, hhl, q1, hq1⟩ := ih (e / 2)
        (Nat.div_lt_self (Nat.pos_of_ne_zero h0) Nat.one_lt_two)
      have hmul : Normalized (polyMul (xPowMod (e / 2) f) (xPowMod (e / 2) f)) :=
        normalized_trim _
      obtain ⟨hsq, hsr, hsrl, hsdiv⟩ := pdivMod_spec hmul hnf hfne
      have hH2 : toP (xPowMod (e / 2) f) * toP (xPowMod (e / 2) f) =
          toP (pdiv (polyMul (xPowMod (e / 2) f) (xPowMod (e / 2) f)) f) *
            toP f +
          toP (pmod (polyMul (xPowMod (e / 2) f) (xPowMod (e / 2) f)) f) := by
        rw [← toP_polyMul]
        exact hsdiv.symm
      have hkey : (X : Polynomial (ZMod p)) ^ (2 * (e / 2)) =
          (q1 * q1 * toP f + q1 * toP (xPowMod (e / 2) f) +
            toP (xPowMod (e / 2) f) * q1 +
            toP (pdiv (polyMul (xPowMod (e / 2) f) (xPowMod (e / 2) f)) f)) *
            toP f +
          toP (pmod (polyMul (xPowMod (e / 2) f) (xPowMod (e / 2) f)) f) := by
        have h2 : (X : Polynomial (ZMod p)) ^ (2 * (e / 2)) =
            ((X : Polynomial (ZMod p)) ^ (e / 2)) *
              ((X : Polynomial (ZMod p)) ^ (e / 2)) := by
          rw [← pow_add]
          congr 1
          omega
        calc (X : Polynomial (ZMod p)) ^ (2 * (e / 2))
            = ((X : Polynomial (ZMod p)) ^ (e / 2)) *
              ((X : Polynomial (ZMod p)) ^ (e / 2)) := h2
        _ = (q1 * toP f + toP (xPowMod (e / 2) f)) *
              (q1 * toP f + toP (xPowMod (e / 2) f)) := by rw [hq1]
        _ = q1 * toP f * (q1 * toP f) + q1 * toP f * toP (xPowMod (e / 2) f) +
              toP (xPowMod (e / 2) f) * (q1 * toP f) +
              toP (xPowMod (e / 2) f) * toP (xPowMod (e / 2) f) := by ring
        _ = _ := by rw [hH2]; ring
      by_cases hpar : e % 2 = 1
      · rw [xPowMod_pos_odd e f h0 hpar]
        have hmul2 : Normalized
            (polyMul (pmod (polyMul (xPowMod (e / 2) f) (xPowMod (e / 2) f)) f)
              [0, 1]) := normalized_trim _
        obtain ⟨htq, htr, htrl, htdiv⟩ := pdivMod_spec hmul2 hnf hfne
        refine ⟨htr, htrl, ?_⟩
        have hX : toP ([0, 1] : Poly p) = X := by
          simp [toP_cons]
        have hodd : e = 2 * (e / 2) + 1 := by omega
        refine ⟨(q1 * q1 * toP f + q1 * toP (xPowMod (e / 2) f) +
            toP (xPowMod (e / 2) f) * q1 +
            toP (pdiv (polyMul (xPowMod (e / 2) f) (xPowMod (e / 2) f)) f)) * X +
            toP (pdiv
              (polyMul (pmod (polyMul (xPowMod (e / 2) f) (xPowMod (e / 2) f)) f)
                [0, 1]) f), ?_⟩
        calc (X : Polynomial (ZMod p)) ^ e
            = (X : Polynomial (ZMod p)) ^ (2 * (e / 2)) * X := by
              rw [← pow_succ, ← hodd]
        _ = ((q1 * q1 * toP f + q1 * toP (xPowMod (e / 2) f) +
              toP (xPowMod (e / 2) f) * q1 +
              toP (pdiv (polyMul (xPowMod (e / 2) f) (xPowMod (e / 2) f)) f)) *
              toP f +
              toP (pmod (polyMul (xPowMod (e / 2) f) (xPowMod (e / 2) f)) f)) *
              X := by
              rw [hkey]
        _ = _ := by
              rw [toP_polyMul, hX] at htdiv
              linear_combination -htdiv
      · rw [xPowMod_pos_even e f h0 hpar]
        have heven : 2 * (e / 2) = e := by omega
        rw [heven] at hkey
        exact ⟨hsr, hsrl, _, hkey⟩

/-- An entry of the output factor collection `fmpz_mod_poly_factor_t`: a
polynomial together with its exponent (`r->poly[i]`, `r->exp[i]`). -/
abbrev Fac (p : ℕ) := Poly p × ℕ

/-- The root reported by a linear factor: for a monic `x - r` stored as
`[-r, 1]` this recovers `r` (negation of the constant coefficient). -/
def rootOf (g : Poly p) : ZMod p := -g.headI

/-- Drain loop of `_fmpz_mod_poly_push_roots` (roots.c lines 123-155).  The
stack array with its pointer `sp` is a list whose head is the slot at index
`sp - 1`; popping swaps the top slot into `f`.  A degree-1 `f` is appended
to the output with exponent `mult`; a degree-0 `f` is dropped; otherwise
the external splitter produces the contents of slots `sp` and `sp + 1`
(the second component is the slot placed on top).  The C loop has no fuel;
the embedding uses explicit fuel and returns `none` if it is exhausted,
which the verification proves impossible under the splitter contract. -/
def drain (split : Poly p → Poly p × Poly p) (mult : ℕ) :
    ℕ → List (Poly p) → Option (List (Fac p))
  | 0, [] => some []
  | 0, _ :: _ => none
  | _ + 1, [] => some []
  | fuel + 1, f :: rest =>
    if f.length ≤ 2 then
      if f.length = 2 then
        (drain split mult fuel rest).map fun out => (f, mult) :: out
      else drain split mult fuel rest
    else
      drain split mult fuel ((split f).2 :: (split f).1 :: rest)

/-- One iteration of the drain loop viewed as a transition on the stack
contents only (output entries dropped), for stating the reachable-state
invariant. -/
def drainStep (split : Poly p → Poly p × Poly p) :
    List (Poly p) → List (Poly p)
  | [] => []
  | f :: rest =>
    if f.length ≤ 2 then rest else (split f).2 :: (split f).1 :: rest

/-- First gcd of the initial split (roots.c lines 96-106):
`a = gcd(t - 1, f)` where `t = x^halfp mod f`. -/
def seedA (halfp : ℕ) (f : Poly p) : Poly p :=
  pgcd (polySub (xPowMod halfp f) [1]) f

/-- Second gcd of the initial split (roots.c lines 108-112):
`b = gcd((t - 1) + 2, f)` — the source adds the constant 2 to the already
decremented t. -/
def seedB (halfp : ℕ) (f : Poly p) : Poly p :=
  pgcd (polyAdd (polySub (xPowMod halfp f) [1]) [2]) f

/-- Initial stack of the general case (roots.c lines 96-122): compute
`t = x^halfp mod f`, `a = gcd(t - 1, f)`, `b = gcd((t - 1) + 2, f)`, swap so
that `deg a >= deg b` (slot 0 holds `a`, slot 1 holds `b`), and seed two
slots, or a single slot when the initial split failed (`deg b = 0`). -/
def generalSeed (halfp : ℕ) (f : Poly p) : List (Poly p) :=
  let a0 := seedA halfp f
  let b0 := seedB halfp f
  let ab := if degI a0 < degI b0 then (b0, a0) else (a0, b0)
  if 0 < degI ab.2 then [ab.2, ab.1] else [ab.1]

/-- Tail of `_fmpz_mod_poly_push_roots` from line 82 on: the part reached
with a nonzero constant term — handle degree at most 1, otherwise run the
initial split and the drain loop. -/
def pushPost (split : Poly p → Poly p × Poly p) (halfp mult : ℕ)
    (f : Poly p) : Option (List (Fac p)) :=
  if f.length ≤ 2 then some (if f.length = 2 then [(f, mult)] else [])
  else drain split mult (4 * f.length + 4) (generalSeed halfp f)

/-- Translation of `_fmpz_mod_poly_push_roots` (roots.c lines 21-156).
`split` stands for the external randomized splitter together with its
random state.  Case ladder: tiny field (`p < 10`) brute force over all
field elements in increasing order; zero constant term — append root 0 once
and strip the maximal power of x; then the nonzero-constant tail. -/
def fmpz_mod_poly_push_roots (split : Poly p → Poly p × Poly p)
    (halfp mult : ℕ) (f : Poly p) : Option (List (Fac p)) :=
  if p < 10 then
    some ((List.range p).filterMap fun n : ℕ =>
      if evalL ((n : ℕ) : ZMod p) f = 0 then
        some ((([-((n : ℕ) : ZMod p), 1] : Poly p), mult) : Fac p)
      else none)
  else if f.headI = 0 then
    (pushPost split halfp mult
        (f.drop (f.takeWhile fun c => decide (c = 0)).length)).map
      fun out => (([0, 1], mult) : Fac p) :: out
  else pushPost split halfp mult f

/-- The message of the zero-input exception (roots.c line 182). -/
def zeroInputMsg : String :=
  "Exception in fmpz_mod_poly_roots: input polynomial is zero."

/-- Translation of `fmpz_mod_poly_roots` (roots.c lines 158-222).
`rprev` is the content of the output collection at entry; the first action
of the function is `r->num = 0`, which discards it.  The result pairs the
final output collection with the raised error, if any (`flint_throw`
aborts, so the output state at the throw is observable).  `none` is fuel
exhaustion inside the drain loop, impossible under the contracts. -/
def fmpz_mod_poly_roots (split : Poly p → Poly p × Poly p)
    (sqf : Poly p → List (Fac p)) (rprev : List (Fac p)) (f : Poly p)
    (with_multiplicity : Bool) : Option (List (Fac p) × Option String) :=
  let _r := rprev
  let r : List (Fac p) := []
  if f.length < 3 then
    if f.length = 2 then some ([(makeMonic f, 1)], none)
    else if f.length = 0 then some (r, some zeroInputMsg)
    else some (r, none)
  else
    let halfp := (p - 1) / 2
    if with_multiplicity then
      ((sqf f).foldlM (fun acc ge =>
          (fmpz_mod_poly_push_roots split halfp ge.2 ge.1).map
            fun out => acc ++ out) r).map
        fun out => (out, none)
    else
      (fmpz_mod_poly_push_roots split halfp 1 (makeMonic f)).map
        fun out => (out, none)

/-- Caller-visible state for the frame property: the caller's polynomial
`f` (passed as `const`) and the output collection. -/
structure CState (p : ℕ) where
  f : Poly p
  out : List (Fac p)

/-- The call `fmpz_mod_poly_roots(r, f, flag)` as a transformer of the
caller's state.  The source consumes only scratch copies (the squarefree
factors in the `with_multiplicity` branch, the monic copy in `t[0]`
otherwise); the caller's `f` is read, never written. -/
def rootsCall (split : Poly p → Poly p × Poly p)
    (sqf : Poly p → List (Fac p)) (flag : Bool) (s : CState p) :
    Option (CState p × Option String) :=
  (fmpz_mod_poly_roots split sqf s.out s.f flag).map
    fun oe => ({ f := s.f, out := oe.1 }, oe.2)

/-- Semantic well-formedness of a stack element: normalized monic list whose
polynomial has pairwise distinct roots and splits completely into linear
factors. -/
def GoodElem [Fact p.Prime] (s : Poly p) : Prop :=
  Normalized s ∧ MonicL s ∧ s ≠ [] ∧ (toP s).roots.Nodup ∧
    (toP s).roots.card = (toP s).natDegree

/-- Modelled from the spec: contract of the external randomized splitter
`_fmpz_mod_poly_split_rabin` (absent from the source file).  On a monic
squarefree completely-splitting polynomial of degree at least 2 it returns
two monic factors whose product is the input, each of degree at least 1,
with the factor destined for the higher stack slot of no larger degree (as
the source's bit-count assertions on lines 149-152 require). -/
def SplitOK (p : ℕ) [Fact p.Prime] (split : Poly p → Poly p × Poly p) : Prop :=
  ∀ f : Poly p, Normalized f → MonicL f → 3 ≤ f.length →
    (toP f).roots.Nodup → (toP f).roots.card = (toP f).natDegree →
    Normalized (split f).1 ∧ MonicL (split f).1 ∧
    Normalized (split f).2 ∧ MonicL (split f).2 ∧
    toP (split f).1 * toP (split f).2 = toP f ∧
    2 ≤ (split f).2.length ∧ (split f).2.length ≤ (split f).1.length

/-- Modelled from the spec: contract of the external squarefree
factorization `fmpz_mod_poly_factor_squarefree` (absent from the source
file) — a list of monic factors of positive degree with positive exponents
whose exponent-weighted product reconstructs the monic normalization of the
input.  (This reconstruction property is all the root-finding proofs
consume.) -/
def SqfOK (p : ℕ) (sqf : Poly p → List (Fac p)) : Prop :=
  ∀ f : Poly p, Normalized f → 3 ≤ f.length →
    (∀ ge ∈ sqf f,
      Normalized ge.1 ∧ MonicL ge.1 ∧ 2 ≤ ge.1.length ∧ 1 ≤ ge.2) ∧
    ((sqf f).map fun ge => toP ge.1 ^ ge.2).prod = toP (makeMonic f)

/-- Modelled from the spec: a deterministic instance of the randomized
splitter contract, splitting off the smallest root of the (completely
splitting) input.  It witnesses that the contract `SplitOK` is satisfiable;
the theorems quantify over every contract-satisfying splitter, hence over
every outcome of the random source. -/
def defaultSplit (f : Poly p) : Poly p × Poly p :=
  match (List.range p).find?
      (fun n : ℕ => decide (evalL ((n : ℕ) : ZMod p) f = 0)) with
  | some n => (pdiv f [-((n : ℕ) : ZMod p), 1], [-((n : ℕ) : ZMod p), 1])
  | none => (f, [1])

/-- Modelled from the spec: an instance of the squarefree-factorization
contract given by the trivial decomposition `f = (monic f)^1`; it satisfies
the reconstruction contract `SqfOK` and coincides with the true squarefree
factorization whenever `f` is squarefree. -/
def sqfTrivial (f : Poly p) : List (Fac p) := [(makeMonic f, 1)]

/-- The machine word size of the 64-bit configuration (`FLINT_BITS`); the
stack handed to the splitting engine has this many slots (the orchestrator
allocates `FLINT_BITS + 3` temporaries, three of which are used otherwise). -/
def wordBits : ℕ := 64

/-- The drain-loop stack invariant (roots.c lines 126-152).  The list head
is the top of the stack, so the element at list position `j` sits in slot
`st.length - 1 - j`.  Every element is a well-formed stack entry, the stack
pointer is within capacity, and the degree of the entry in slot `i` is
below `2 ^ (wordBits - i)` — its bit count is at most `wordBits - i`. -/
def StackInv [Fact p.Prime] (st : List (Poly p)) : Prop :=
  (∀ g ∈ st, GoodElem g) ∧ st.length ≤ wordBits ∧
  ∀ j (hj : j < st.length),
    (st.get ⟨j, hj⟩).length - 1 < 2 ^ (wordBits - (st.length - 1 - j))

section FieldFacts

variable [Fact p.Prime]

theorem full_of_dvd {q Q : Polynomial (ZMod p)} (hQ : Q ≠ 0) (hq : q ≠ 0)
    (hd : q ∣ Q) (hnd : Q.roots.Nodup) (hcard : Q.roots.card = Q.natDegree) :
    q.roots.Nodup ∧ q.roots.card = q.natDegree := by
  obtain ⟨r, hr⟩ := hd
  have hrne : r ≠ 0 := by
    rintro rfl
    rw [mul_zero] at hr
    exact hQ hr
  have hle : q.roots ≤ Q.roots := roots.le_of_dvd hQ ⟨r, hr⟩
  refine ⟨Multiset.nodup_of_le hle hnd, ?_⟩
  have hmul : Q.roots = q.roots + r.roots := by
    rw [hr]
    exact roots_mul (hr ▸ hQ)
  have hdeg : Q.natDegree = q.natDegree + r.natDegree := by
    rw [hr]
    exact natDegree_mul hq hrne
  have hc1 : q.roots.card ≤ q.natDegree := card_roots' q
  have hc2 : r.roots.card ≤ r.natDegree := card_roots' r
  have hsum : q.roots.card + r.roots.card = Q.natDegree := by
    rw [← hcard, hmul, Multiset.card_add]
  omega

theorem XpX_facts :
    ((X : Polynomial (ZMod p)) ^ p - X) ≠ 0 ∧
    ((X : Polynomial (ZMod p)) ^ p - X).natDegree = p ∧
    ((X : Polynomial (ZMod p)) ^ p - X).roots.Nodup ∧
    ((X : Polynomial (ZMod p)) ^ p - X).roots.card = p := by
  haveI : NeZero p := ⟨(Fact.out : p.Prime).ne_zero⟩
  have hp2 : 2 ≤ p := (Fact.out : p.Prime).two_le
  have hdeg : ((X : Polynomial (ZMod p)) ^ p - X).degree = (p : WithBot ℕ) := by
    rw [degree_sub_eq_left_of_degree_lt, degree_X_pow]
    rw [degree_X_pow, degree_X]
    exact_mod_cast WithBot.coe_lt_coe.mpr (by omega)
  have hne : ((X : Polynomial (ZMod p)) ^ p - X) ≠ 0 := by
    intro h
    rw [h, degree_zero] at hdeg
    exact (WithBot.bot_ne_coe) hdeg
  have hnd : ((X : Polynomial (ZMod p)) ^ p - X).natDegree = p :=
    natDegree_eq_of_degree_eq_some hdeg
  have hroot : ∀ a : ZMod p, a ∈ ((X : Polynomial (ZMod p)) ^ p - X).roots := by
    intro a
    rw [mem_roots hne]
    show eval a ((X : Polynomial (ZMod p)) ^ p - X) = 0
    simp [ZMod.pow_card]
  have huniv : ((X : Polynomial (ZMod p)) ^ p - X).roots.toFinset =
      Finset.univ :=
    Finset.eq_univ_iff_forall.mpr fun a => Multiset.mem_toFinset.mpr (hroot a)
  have hcarduniv : (Finset.univ : Finset (ZMod p)).card = p := by
    rw [Finset.card_univ, ZMod.card]
  have hfcard : ((X : Polynomial (ZMod p)) ^ p - X).roots.toFinset.card = p := by
    rw [huniv, hcarduniv]
  have hle1 : p ≤ Multiset.card ((X : Polynomial (ZMod p)) ^ p - X).roots :=
    le_trans (le_of_eq hfcard.symm) (Multiset.toFinset_card_le _)
  have hle2 : Multiset.card ((X : Polynomial (ZMod p)) ^ p - X).roots ≤ p :=
    le_trans (card_roots' _) (le_of_eq hnd)
  have hcardeq : Multiset.card ((X : Polynomial (ZMod p)) ^ p - X).roots = p :=
    le_antisymm hle2 hle1
  have hnodup : ((X : Polynomial (ZMod p)) ^ p - X).roots.Nodup :=
    Multiset.toFinset_card_eq_card_iff_nodup.mp (by rw [hfcard, hcardeq])
  exact ⟨hne, hnd, hnodup, hcardeq⟩

theorem XpX_factor {halfp : ℕ} (hhalf : 2 * halfp = p - 1) :
    (X : Polynomial (ZMod p)) ^ p - X =
      ((X ^ halfp - 1) * (X ^ halfp + 1)) * X := by
  have hp1 : 2 * halfp + 1 = p := by
    have := (Fact.out : p.Prime).two_le
    omega
  calc (X : Polynomial (ZMod p)) ^ p - X
      = X ^ (2 * halfp + 1) - X := by rw [hp1]
  _ = _ := by ring

theorem Xhm1_dvd_XpX {halfp : ℕ} (hhalf : 2 * halfp = p - 1) :
    ((X : Polynomial (ZMod p)) ^ halfp - 1) ∣ (X : Polynomial (ZMod p)) ^ p - X :=
  ⟨(X ^ halfp + 1) * X, by rw [XpX_factor hhalf]; ring⟩

theorem Xhp1_dvd_XpX {halfp : ℕ} (hhalf : 2 * halfp = p - 1) :
    ((X : Polynomial (ZMod p)) ^ halfp + 1) ∣ (X : Polynomial (ZMod p)) ^ p - X :=
  ⟨(X ^ halfp - 1) * X, by rw [XpX_factor hhalf]; ring⟩

theorem euler_pm {halfp : ℕ} (hhalf : 2 * halfp = p - 1) {r : ZMod p}
    (hr : r ≠ 0) : r ^ halfp = 1 ∨ r ^ halfp = -1 := by
  have h2 : r ^ halfp * r ^ halfp = 1 := by
    rw [← pow_add]
    have he : halfp + halfp = p - 1 := by omega
    rw [he]
    exact ZMod.pow_card_sub_one_eq_one hr
  exact mul_self_eq_one_iff.mp h2

theorem goodElem_of_dvd_XpX {s : Poly p} (hn : Normalized s) (hm : MonicL s)
    (hne : s ≠ []) (hd : toP s ∣ (X : Polynomial (ZMod p)) ^ p - X) :
    GoodElem s := by
  obtain ⟨hQne, hQdeg, hQnd, hQcard⟩ := XpX_facts (p := p)
  have hsne : toP s ≠ 0 := toP_ne_zero hn hne
  have h := full_of_dvd hQne hsne hd hQnd (by rw [hQcard, hQdeg])
  exact ⟨hn, hm, hne, h.1, h.2⟩

theorem goodElem_of_dvd {s t : Poly p} (hGood : GoodElem t)
    (hn : Normalized s) (hm : MonicL s) (hne : s ≠ [])
    (hd : toP s ∣ toP t) : GoodElem s := by
  obtain ⟨hnt, hmt, hnet, hndt, hct⟩ := hGood
  have h := full_of_dvd (toP_ne_zero hnt hnet) (toP_ne_zero hn hne) hd hndt hct
  exact ⟨hn, hm, hne, h.1, h.2⟩

theorem roots_toP_one : (toP ([1] : Poly p)).roots = 0 := by
  have h : toP ([1] : Poly p) = C 1 := by simp [toP_cons]
  rw [h, roots_C]

theorem roots_toP_linear (c : ZMod p) :
    (toP ([c, 1] : Poly p)).roots = {-c} := by
  have h : toP ([c, 1] : Poly p) = X - C (-c) := by
    simp [toP_cons]
    ring
  rw [h, roots_X_sub_C]

end FieldFacts

/-- Fuel measure for the drain loop: a stack element of degree `d >= 1`
needs at most `2 d - 1` iterations, a degree-0 element one iteration. -/
def drainMeasure (st : List (Poly p)) : ℕ :=
  (st.map fun s => if s.length ≤ 1 then 1 else 2 * s.length - 3).sum

theorem monicL_length_one {c : ZMod p} (h : MonicL [c]) : c = 1 := h

theorem monicL_length_two {c d : ZMod p} (h : MonicL [c, d]) : d = 1 := h

theorem drain_cons (split : Poly p → Poly p × Poly p) (mult fuel : ℕ)
    (f : Poly p) (rest : List (Poly p)) :
    drain split mult (fuel + 1) (f :: rest) =
      if f.length ≤ 2 then
        if f.length = 2 then
          (drain split mult fuel rest).map fun out => (f, mult) :: out
        else drain split mult fuel rest
      else drain split mult fuel ((split f).2 :: (split f).1 :: rest) := rfl

theorem drain_spec [Fact p.Prime] {split : Poly p → Poly p × Poly p}
    (hs : SplitOK p split) (mult : ℕ) :
    ∀ (fuel : ℕ) (st : List (Poly p)), (∀ s ∈ st, GoodElem s) →
      drainMeasure st ≤ fuel →
      ∃ out, drain split mult fuel st = some out ∧
        (∀ ge ∈ out,
          ge.2 = mult ∧ ge.1.length = 2 ∧ MonicL ge.1 ∧ Normalized ge.1) ∧
        ((out.map fun ge => rootOf ge.1 : List (ZMod p)) : Multiset (ZMod p)) =
          (st.map fun s => (toP s).roots).sum := by
  intro fuel
  induction fuel with
  | zero =>
    intro st hgood hmeas
    cases st with
    | nil =>
      refine ⟨[], rfl, by simp, by simp⟩
    | cons f rest =>
      exfalso
      have : 1 ≤ (if f.length ≤ 1 then 1 else 2 * f.length - 3) := by
        by_cases h : f.length ≤ 1 <;> simp [h] <;> omega
      have hm : 1 ≤ drainMeasure (f :: rest) := by
        unfold drainMeasure
        simp only [List.map_cons, List.sum_cons]
        omega
      omega
  | succ n ih =>
    intro st hgood hmeas
    cases st with
    | nil => exact ⟨[], rfl, by simp, by simp⟩
    | cons f rest =>
      obtain ⟨hnf, hmf, hfne, hndf, hcf⟩ := hgood f (List.mem_cons_self f rest)
      have hrest : ∀ s ∈ rest, GoodElem s := fun s hsm =>
        hgood s (List.mem_cons_of_mem f hsm)
      have hlen1 : 1 ≤ f.length := by
        cases f with
        | nil => exact absurd rfl hfne
        | cons a t => simp
      have hmeasf : drainMeasure (f :: rest) =
          (if f.length ≤ 1 then 1 else 2 * f.length - 3) +
            drainMeasure rest := by
        unfold drainMeasure
        simp
      rcases Nat.lt_or_ge f.length 2 with hf1 | hf2
      · -- degree 0: f = [1], dropped
        have hfl : f.length = 1 := by omega
        obtain ⟨c, hc⟩ : ∃ c, f = [c] := by
          cases f with
          | nil => exact absurd rfl hfne
          | cons a t =>
            cases t with
            | nil => exact ⟨a, rfl⟩
            | cons b t2 => simp at hfl
        subst hc
        have hc1 : c = 1 := monicL_length_one hmf
        subst hc1
        obtain ⟨out, hdr, hprops, hsum⟩ := ih rest hrest (by
          rw [hmeasf] at hmeas
          simp at hmeas
          omega)
        refine ⟨out, ?_, hprops, ?_⟩
        · rw [drain_cons, if_pos (by simp), if_neg (by simp)]
          exact hdr
        · rw [hsum]
          simp [roots_toP_one]
      · rcases Nat.lt_or_ge f.length 3 with hf2' | hf3
        · -- degree 1: append (f, mult)
          have hfl : f.length = 2 := by omega
          obtain ⟨c, d, hcd⟩ : ∃ c d, f = [c, d] := by
            cases f with
            | nil => exact absurd rfl hfne
            | cons a t =>
              cases t with
              | nil => simp at hfl
              | cons b t2 =>
                cases t2 with
                | nil => exact ⟨a, b, rfl⟩
                | cons e t3 => simp at hfl
          subst hcd
          have hd1 : d = 1 := monicL_length_two hmf
          subst hd1
          obtain ⟨out, hdr, hprops, hsum⟩ := ih rest hrest (by
            rw [hmeasf] at hmeas
            simp at hmeas
            omega)
          refine ⟨([c, 1], mult) :: out, ?_, ?_, ?_⟩
          · rw [drain_cons, if_pos (by simp), if_pos (by simp), hdr]
            rfl
          · intro ge hge
            rcases List.mem_cons.mp hge with hh | hh
            · subst hh
              exact ⟨rfl, rfl, hmf, hnf⟩
            · exact hprops ge hh
          · simp only [List.map_cons, List.sum_cons, roots_toP_linear]
            rw [← Multiset.cons_coe, hsum, Multiset.singleton_add]
            rfl
        · -- degree >= 2: split
          obtain ⟨hn1, hm1, hn2, hm2, hprod, hl2, hl21⟩ :=
            hs f hnf hmf hf3 hndf hcf
          have hne1 : (split f).1 ≠ [] := by
            intro h
            rw [h] at hl21
            simp only [List.length_nil] at hl21
            omega
          have hne2 : (split f).2 ≠ [] := by
            intro h
            rw [h] at hl2
            simp at hl2
          have hd1 : toP (split f).1 ∣ toP f := ⟨toP (split f).2, hprod.symm⟩
          have hd2 : toP (split f).2 ∣ toP f :=
            ⟨toP (split f).1, by rw [← hprod]; ring⟩
          have hgood1 : GoodElem (split f).1 :=
            goodElem_of_dvd ⟨hnf, hmf, hfne, hndf, hcf⟩ hn1 hm1 hne1 hd1
          have hgood2 : GoodElem (split f).2 :=
            goodElem_of_dvd ⟨hnf, hmf, hfne, hndf, hcf⟩ hn2 hm2 hne2 hd2
          have hlens : (split f).1.length + (split f).2.length =
              f.length + 1 := by
            have e1 := length_toP hn1 hne1
            have e2 := length_toP hn2 hne2
            have ef := length_toP hnf hfne
            have hnd := natDegree_mul (toP_ne_zero hn1 hne1)
              (toP_ne_zero hn2 hne2)
            rw [hprod] at hnd
            omega
          have hc1 : 2 ≤ (split f).1.length := le_trans hl2 hl21
          have hmeas2 : drainMeasure ((split f).2 :: (split f).1 :: rest) ≤ n := by
            have hdm : drainMeasure ((split f).2 :: (split f).1 :: rest) =
                2 * (split f).2.length - 3 +
                  (2 * (split f).1.length - 3 + drainMeasure rest) := by
              unfold drainMeasure
              simp only [List.map_cons, List.sum_cons]
              rw [if_neg (by omega), if_neg (by omega)]
            have hmfz : drainMeasure (f :: rest) =
                2 * f.length - 3 + drainMeasure rest := by
              unfold drainMeasure
              simp only [List.map_cons, List.sum_cons]
              rw [if_neg (by omega)]
            rw [hmfz] at hmeas
            rw [hdm]
            omega
          obtain ⟨out, hdr, hprops, hsum⟩ :=
            ih ((split f).2 :: (split f).1 :: rest)
              (by
                intro s hsm
                rcases List.mem_cons.mp hsm with h | h
                · exact h ▸ hgood2
                · rcases List.mem_cons.mp h with h2 | h2
                  · exact h2 ▸ hgood1
                  · exact hrest s h2)
              hmeas2
          refine ⟨out, ?_, hprops, ?_⟩
          · rw [drain_cons, if_neg (by omega)]
            exact hdr
          · rw [hsum]
            have hmul : (toP f).roots =
                (toP (split f).1).roots + (toP (split f).2).roots := by
              rw [← hprod]
              exact roots_mul (by
                rw [hprod]
                exact toP_ne_zero hnf hfne)
            simp only [List.map_cons, List.sum_cons, hmul]
            abel

theorem evalL_zero_eq_headI (g : Poly p) : evalL 0 g = g.headI := by
  cases g with
  | nil => rfl
  | cons c t => simp [evalL]

theorem evalL_of_dvd {a b : Poly p} (h : toP a ∣ toP b) {r : ZMod p}
    (hr : evalL r a = 0) : evalL r b = 0 := by
  obtain ⟨w, hw⟩ := h
  rw [evalL_toP] at hr ⊢
  rw [hw, eval_mul, hr, zero_mul]

theorem linear_dvd_of_evalL {a : Poly p} {r : ZMod p} (hr : evalL r a = 0) :
    (X - C r) ∣ toP a := by
  rw [evalL_toP] at hr
  exact dvd_iff_isRoot.mpr hr

theorem evalL_of_linear_dvd {a : Poly p} {r : ZMod p}
    (h : (X - C r) ∣ toP a) : evalL r a = 0 := by
  rw [evalL_toP]
  exact dvd_iff_isRoot.mp h

theorem drop_normalized {f : Poly p} (hn : Normalized f) (k : ℕ) :
    Normalized (f.drop k) := by
  induction k generalizing f with
  | zero => exact hn
  | succ n ih =>
    cases f with
    | nil => exact normalized_nil
    | cons c t =>
      rw [List.drop_succ_cons]
      exact ih (normalized_cons hn).1

theorem lead_drop {f : Poly p} (k : ℕ) (hk : k < f.length) :
    lead (f.drop k) = lead f := by
  induction k generalizing f with
  | zero => rfl
  | succ n ih =>
    cases f with
    | nil => simp at hk
    | cons c t =>
      rw [List.drop_succ_cons, lead_cons,
        if_neg (by
          intro h
          rw [h] at hk
          simp at hk)]
      exact ih (by simpa using hk)

theorem takeWhile_zeros (f : Poly p) :
    f.takeWhile (fun c => decide (c = 0)) =
      List.replicate (f.takeWhile fun c => decide (c = 0)).length 0 := by
  rw [List.eq_replicate_iff]
  refine ⟨rfl, fun b hb => ?_⟩
  have hb2 := List.mem_takeWhile_imp hb
  exact of_decide_eq_true hb2

theorem drop_takeWhile (f : Poly p) :
    f.drop (f.takeWhile fun c => decide (c = 0)).length =
      f.dropWhile (fun c => decide (c = 0)) := by
  induction f with
  | nil => rfl
  | cons c t ih =>
    by_cases hc : c = 0
    · rw [List.takeWhile_cons, List.dropWhile_cons]
      simp only [hc]
      simpa using ih
    · rw [List.takeWhile_cons, List.dropWhile_cons]
      simp [hc]

theorem headI_dropWhile_ne (f : Poly p)
    (hne : f.dropWhile (fun c => decide (c = 0)) ≠ []) :
    (f.dropWhile (fun c => decide (c = 0))).headI ≠ 0 := by
  induction f with
  | nil => exact absurd rfl hne
  | cons c t ih =>
    rw [List.dropWhile_cons]
    by_cases hc : c = 0
    · simp only [hc]
      simp only [decide_eq_true_eq, if_pos rfl]
      apply ih
      rw [List.dropWhile_cons] at hne
      simpa [hc] using hne
    · simp [hc]

theorem strip_split (f : Poly p) :
    List.replicate (f.takeWhile fun c => decide (c = 0)).length 0 ++
      f.drop (f.takeWhile fun c => decide (c = 0)).length = f := by
  conv_rhs =>
    rw [← List.takeWhile_append_dropWhile (fun c => decide (c = 0)) f]
  rw [drop_takeWhile]
  congr 1
  exact (takeWhile_zeros f).symm

theorem toP_strip (f : Poly p) :
    toP f = X ^ (f.takeWhile fun c => decide (c = 0)).length *
      toP (f.drop (f.takeWhile fun c => decide (c = 0)).length) := by
  conv_lhs => rw [← strip_split f]
  rw [toP_replicate_append]

theorem mem_roots_toP {s : Poly p} [Fact p.Prime] {r : ZMod p}
    (hn : Normalized s) (hne : s ≠ []) :
    r ∈ (toP s).roots ↔ evalL r s = 0 := by
  rw [mem_roots (toP_ne_zero hn hne), IsRoot, ← evalL_toP]

theorem generalSeed_cases (halfp : ℕ) (f : Poly p) :
    ∃ a b : Poly p,
      ({a, b} : Set (Poly p)) = {seedA halfp f, seedB halfp f} ∧
      degI b ≤ degI a ∧
      generalSeed halfp f = (if 0 < degI b then [b, a] else [a]) := by
  by_cases h : degI (seedA halfp f) < degI (seedB halfp f)
  · refine ⟨seedB halfp f, seedA halfp f, Set.pair_comm _ _, le_of_lt h, ?_⟩
    simp [generalSeed, h]
  · refine ⟨seedA halfp f, seedB halfp f, rfl, not_lt.mp h, ?_⟩
    simp [generalSeed, h]

theorem two_ne_zero_zmod [Fact p.Prime] {halfp : ℕ}
    (hhalf : 2 * halfp = p - 1) : (2 : ZMod p) ≠ 0 := by
  have hp2 : 2 ≤ p := (Fact.out : p.Prime).two_le
  have hodd : p ≠ 2 := by
    intro h
    subst h
    omega
  intro h
  have h2 : ((2 : ℕ) : ZMod p) = 0 := by exact_mod_cast h
  rw [ZMod.natCast_zmod_eq_zero_iff_dvd] at h2
  exact hodd ((Nat.prime_dvd_prime_iff_eq Fact.out Nat.prime_two).mp h2)

/-- Joint facts about the two gcds of the initial split: they are good stack
elements, their roots are exactly the roots of `f` with no duplication, and
their degrees sum to at most the degree of `f`. -/
theorem seedAB_spec [Fact p.Prime] {halfp : ℕ} (hhalf : 2 * halfp = p - 1)
    {f : Poly p} (hn : Normalized f) (hm : MonicL f) (hc : f.headI ≠ 0)
    (hlen : 3 ≤ f.length) :
    GoodElem (seedA halfp f) ∧ GoodElem (seedB halfp f) ∧
    ((toP (seedA halfp f)).roots + (toP (seedB halfp f)).roots).Nodup ∧
    (∀ r : ZMod p,
      r ∈ (toP (seedA halfp f)).roots + (toP (seedB halfp f)).roots ↔
        evalL r f = 0) ∧
    Multiset.card
        ((toP (seedA halfp f)).roots + (toP (seedB halfp f)).roots) + 1 ≤
      f.length ∧
    (seedA halfp f).length ≤ f.length ∧ (seedB halfp f).length ≤ f.length := by
  have hfne : f ≠ [] := by
    intro h
    rw [h] at hlen
    simp at hlen
  obtain ⟨hnt, hlt, q, hq⟩ := xPowMod_spec hn hfne halfp
  have h1 : toP ([1] : Poly p) = 1 := by simp [toP_cons]
  have hC2 : (C (2 : ZMod p) : Polynomial (ZMod p)) = 2 := by
    have : ((2 : ℕ) : ZMod p) = (2 : ZMod p) := by norm_cast
    rw [← this, C_eq_natCast]
    norm_cast
  have htm : toP (polySub (xPowMod halfp f) [1]) = toP (xPowMod halfp f) - 1 := by
    rw [toP_polySub, h1]
  have h2l : toP ([2] : Poly p) = 2 := by
    simp [toP_cons, hC2]
  have htp : toP (polyAdd (polySub (xPowMod halfp f) [1]) [2]) =
      toP (xPowMod halfp f) + 1 := by
    rw [toP_polyAdd, htm, h2l]
    ring
  have hsa : seedA halfp f = pgcd (polySub (xPowMod halfp f) [1]) f := rfl
  have hsb : seedB halfp f =
      pgcd (polyAdd (polySub (xPowMod halfp f) [1]) [2]) f := rfl
  obtain ⟨hna, hAtm, hAf, hAgr, hAm0⟩ :=
    pgcd_spec
      (show Normalized (polySub (xPowMod halfp f) [1]) from normalized_trim _)
      hn
  rw [← hsa] at hna hAtm hAf hAgr hAm0
  obtain ⟨hAmon, hAne⟩ := hAm0 (Or.inr hfne)
  obtain ⟨hnb, hBtp, hBf, hBgr, hBm0⟩ :=
    pgcd_spec
      (show Normalized (polyAdd (polySub (xPowMod halfp f) [1]) [2]) from
        normalized_trim _)
      hn
  rw [← hsb] at hnb hBtp hBf hBgr hBm0
  obtain ⟨hBmon, hBne⟩ := hBm0 (Or.inr hfne)
  have hAtm' : toP (seedA halfp f) ∣ toP (xPowMod halfp f) - 1 := htm ▸ hAtm
  have hBtp' : toP (seedB halfp f) ∣ toP (xPowMod halfp f) + 1 := htp ▸ hBtp
  have hqm : (X : Polynomial (ZMod p)) ^ halfp - 1 =
      q * toP f + (toP (xPowMod halfp f) - 1) := by
    rw [hq]
    ring
  have hqp : (X : Polynomial (ZMod p)) ^ halfp + 1 =
      q * toP f + (toP (xPowMod halfp f) + 1) := by
    rw [hq]
    ring
  have hA1 : toP (seedA halfp f) ∣ (X : Polynomial (ZMod p)) ^ halfp - 1 := by
    rw [hqm]
    exact dvd_add (hAf.mul_left q) hAtm'
  have hB1 : toP (seedB halfp f) ∣ (X : Polynomial (ZMod p)) ^ halfp + 1 := by
    rw [hqp]
    exact dvd_add (hBf.mul_left q) hBtp'
  have hgoodA : GoodElem (seedA halfp f) :=
    goodElem_of_dvd_XpX hna hAmon hAne (hA1.trans (Xhm1_dvd_XpX hhalf))
  have hgoodB : GoodElem (seedB halfp f) :=
    goodElem_of_dvd_XpX hnb hBmon hBne (hB1.trans (Xhp1_dvd_XpX hhalf))
  have h2ne : (2 : ZMod p) ≠ 0 := two_ne_zero_zmod hhalf
  have hcop' : IsCoprime (toP (xPowMod halfp f) - 1)
      (toP (xPowMod halfp f) + 1) := by
    refine ⟨-(C (2⁻¹ : ZMod p)), C (2⁻¹ : ZMod p), ?_⟩
    have hCC : (C (2⁻¹ : ZMod p)) * (2 : Polynomial (ZMod p)) = 1 := by
      rw [← hC2, ← C_mul, inv_mul_cancel₀ h2ne, C_1]
    calc -(C (2⁻¹ : ZMod p)) * (toP (xPowMod halfp f) - 1) +
          C (2⁻¹ : ZMod p) * (toP (xPowMod halfp f) + 1)
        = C (2⁻¹ : ZMod p) * 2 := by ring
    _ = 1 := hCC
  have hcop : IsCoprime (toP (seedA halfp f)) (toP (seedB halfp f)) := by
    obtain ⟨u, v, huv⟩ := hcop'
    obtain ⟨a1, ha1⟩ := hAtm'
    obtain ⟨b1, hb1⟩ := hBtp'
    refine ⟨u * a1, v * b1, ?_⟩
    rw [ha1, hb1] at huv
    linear_combination huv
  have hABdvd : toP (seedA halfp f) * toP (seedB halfp f) ∣ toP f :=
    hcop.mul_dvd hAf hBf
  have hAne0 : toP (seedA halfp f) ≠ 0 := toP_ne_zero hna hAne
  have hBne0 : toP (seedB halfp f) ≠ 0 := toP_ne_zero hnb hBne
  have hdegAB : (toP (seedA halfp f)).natDegree +
      (toP (seedB halfp f)).natDegree ≤ (toP f).natDegree := by
    have h := natDegree_le_of_dvd hABdvd (toP_ne_zero hn hfne)
    rwa [natDegree_mul hAne0 hBne0] at h
  have hcover : ∀ r : ZMod p, evalL r f = 0 →
      evalL r (seedA halfp f) = 0 ∨ evalL r (seedB halfp f) = 0 := by
    intro r hr
    have hr0 : r ≠ 0 := by
      intro h
      subst h
      rw [evalL_zero_eq_headI] at hr
      exact hc hr
    have hF0 : (toP f).eval r = 0 := by
      rw [← evalL_toP]
      exact hr
    have hevalT : (toP (xPowMod halfp f)).eval r = r ^ halfp := by
      have hcong := congrArg (eval r) hq
      rw [eval_add, eval_mul, eval_pow, eval_X, hF0, mul_zero, zero_add]
        at hcong
      exact hcong.symm
    rcases euler_pm hhalf hr0 with h1 | h1
    · left
      have hu1 : (X - C r) ∣ toP (polySub (xPowMod halfp f) [1]) := by
        rw [htm]
        apply dvd_iff_isRoot.mpr
        show eval r _ = 0
        rw [eval_sub, hevalT, eval_one, h1, sub_self]
      have hu2 : (X - C r) ∣ toP f := by
        apply dvd_iff_isRoot.mpr
        exact hF0
      exact evalL_of_linear_dvd (hAgr _ hu1 hu2)
    · right
      have hu1 : (X - C r) ∣ toP (polyAdd (polySub (xPowMod halfp f) [1]) [2]) := by
        rw [htp]
        apply dvd_iff_isRoot.mpr
        show eval r _ = 0
        rw [eval_add, hevalT, eval_one, h1]
        ring
      have hu2 : (X - C r) ∣ toP f := by
        apply dvd_iff_isRoot.mpr
        exact hF0
      exact evalL_of_linear_dvd (hBgr _ hu1 hu2)
  have hdisj : ∀ r : ZMod p,
      evalL r (seedA halfp f) = 0 → evalL r (seedB halfp f) = 0 → False := by
    intro r hra hrb
    exact not_isUnit_X_sub_C r
      (hcop.isUnit_of_dvd' (linear_dvd_of_evalL hra) (linear_dvd_of_evalL hrb))
  refine ⟨hgoodA, hgoodB, ?_, ?_, ?_, ?_, ?_⟩
  · rw [Multiset.nodup_add]
    refine ⟨hgoodA.2.2.2.1, hgoodB.2.2.2.1, Multiset.disjoint_left.mpr ?_⟩
    intro r hra hrb
    exact hdisj r ((mem_roots_toP hna hAne).mp hra)
      ((mem_roots_toP hnb hBne).mp hrb)
  · intro r
    rw [Multiset.mem_add, mem_roots_toP hna hAne, mem_roots_toP hnb hBne]
    constructor
    · rintro (h | h)
      · exact evalL_of_dvd hAf h
      · exact evalL_of_dvd hBf h
    · exact hcover r
  · rw [Multiset.card_add, hgoodA.2.2.2.2, hgoodB.2.2.2.2]
    have hlenf := length_toP hn hfne
    omega
  · have := natDegree_le_of_dvd hAf (toP_ne_zero hn hfne)
    have h1 := length_toP hna hAne
    have h2 := length_toP hn hfne
    omega
  · have := natDegree_le_of_dvd hBf (toP_ne_zero hn hfne)
    have h1 := length_toP hnb hBne
    have h2 := length_toP hn hfne
    omega

/-- Soundness-and-completeness package for the output of the splitting
engine on input `f`: entries are linear monic factors carrying exponent
`mult`, the reported roots are pairwise distinct, a field element is
reported iff it is a root of `f`, and at most `deg f` entries appear. -/
def PushOut (mult : ℕ) (f : Poly p) (out : List (Fac p)) : Prop :=
  (∀ ge ∈ out, ge.2 = mult ∧ ge.1.length = 2 ∧ MonicL ge.1 ∧ Normalized ge.1) ∧
  (out.map fun ge => rootOf ge.1).Nodup ∧
  (∀ r : ZMod p, (r ∈ out.map fun ge => rootOf ge.1) ↔ evalL r f = 0) ∧
  out.length + 1 ≤ f.length

theorem nodup_roots_length_le [Fact p.Prime] {f : Poly p} (hn : Normalized f)
    (hfne : f ≠ []) {l : List (ZMod p)} (hnd : l.Nodup)
    (hmem : ∀ r ∈ l, evalL r f = 0) : l.length + 1 ≤ f.length := by
  have hsub : l.toFinset ⊆ (toP f).roots.toFinset := by
    intro r hr
    rw [Multiset.mem_toFinset]
    exact (mem_roots_toP hn hfne).mpr (hmem r (List.mem_toFinset.mp hr))
  have h1 : l.toFinset.card = l.length := List.toFinset_card_of_nodup hnd
  have h2 : l.toFinset.card ≤ (toP f).roots.toFinset.card :=
    Finset.card_le_card hsub
  have h3 : (toP f).roots.toFinset.card ≤ Multiset.card (toP f).roots :=
    Multiset.toFinset_card_le _
  have h4 : Multiset.card (toP f).roots ≤ (toP f).natDegree := card_roots' _
  have h5 := length_toP hn hfne
  omega

theorem pushOut_of_parts [Fact p.Prime] {mult : ℕ} {f : Poly p}
    {out : List (Fac p)} (hn : Normalized f) (hfne : f ≠ [])
    (h1 : ∀ ge ∈ out,
      ge.2 = mult ∧ ge.1.length = 2 ∧ MonicL ge.1 ∧ Normalized ge.1)
    (h2 : (out.map fun ge => rootOf ge.1).Nodup)
    (h3 : ∀ r : ZMod p, (r ∈ out.map fun ge => rootOf ge.1) ↔ evalL r f = 0) :
    PushOut mult f out :=
  ⟨h1, h2, h3,
    by
      have := nodup_roots_length_le hn hfne h2 fun r hr => (h3 r).mp hr
      simpa using this⟩

theorem monicL_zero_one [Fact p.Prime] : MonicL ([0, 1] : Poly p) := rfl

theorem pushPost_spec [Fact p.Prime] {split : Poly p → Poly p × Poly p}
    (hs : SplitOK p split) {halfp : ℕ} (hhalf : 2 * halfp = p - 1) (mult : ℕ)
    {f : Poly p} (hn : Normalized f) (hm : MonicL f) (hfne : f ≠ [])
    (hc : f.headI ≠ 0) :
    ∃ out, pushPost split halfp mult f = some out ∧ PushOut mult f out := by
  rcases Nat.lt_or_ge f.length 3 with hlen | hlen
  · have hle : f.length ≤ 2 := by omega
    have h1 : 1 ≤ f.length := by
      cases f with
      | nil => exact absurd rfl hfne
      | cons a t => simp
    rcases Nat.lt_or_ge f.length 2 with hl1 | hl2
    · -- degree 0 : nothing appended
      have hfl : f.length = 1 := by omega
      obtain ⟨c, hcc⟩ : ∃ c, f = [c] := by
        cases f with
        | nil => exact absurd rfl hfne
        | cons a t =>
          cases t with
          | nil => exact ⟨a, rfl⟩
          | cons b t2 => simp at hfl
      subst hcc
      have hc1 : c = 1 := monicL_length_one hm
      subst hc1
      refine ⟨[], ?_, pushOut_of_parts hn hfne (by simp) (by simp) ?_⟩
      · unfold pushPost
        rw [if_pos hle, if_neg (by omega)]
      · intro r
        simp [evalL]
    · -- degree 1 : append f itself
      have hfl : f.length = 2 := by omega
      obtain ⟨c, d, hcd⟩ : ∃ c d, f = [c, d] := by
        cases f with
        | nil => exact absurd rfl hfne
        | cons a t =>
          cases t with
          | nil => simp at hfl
          | cons b t2 =>
            cases t2 with
            | nil => exact ⟨a, b, rfl⟩
            | cons e t3 => simp at hfl
      subst hcd
      have hd1 : d = 1 := monicL_length_two hm
      subst hd1
      refine ⟨[([c, 1], mult)], ?_, pushOut_of_parts hn hfne ?_ (by simp) ?_⟩
      · unfold pushPost
        rw [if_pos hle, if_pos hfl]
      · intro ge hge
        rw [List.mem_singleton] at hge
        subst hge
        exact ⟨rfl, rfl, hm, hn⟩
      · intro r
        have hev : evalL r [c, 1] = c + r := by
          show c + r * (1 + r * 0) = c + r
          ring
        simp only [List.map_cons, List.map_nil, List.mem_singleton, hev]
        have hro : rootOf ([c, 1] : Poly p) = -c := by
          simp [rootOf]
        rw [hro]
        constructor
        · intro h
          subst h
          ring
        · intro h
          have : r = -c := by linear_combination h
          exact this
  · -- general case
    obtain ⟨hgA, hgB, hnodup, hmem, hcard, hlA, hlB⟩ :=
      seedAB_spec hhalf hn hm hc hlen
    obtain ⟨a, b, hset, hdeg, hgs⟩ := generalSeed_cases halfp f
    have hassign : (a = seedA halfp f ∧ b = seedB halfp f) ∨
        (a = seedB halfp f ∧ b = seedA halfp f) := by
      rcases Set.pair_eq_pair_iff.mp hset with ⟨h1, h2⟩ | ⟨h1, h2⟩
      · exact Or.inl ⟨h1, h2⟩
      · exact Or.inr ⟨h1, h2⟩
    have hGa : GoodElem a := by
      rcases hassign with ⟨h1, h2⟩ | ⟨h1, h2⟩
      · exact h1 ▸ hgA
      · exact h1 ▸ hgB
    have hGb : GoodElem b := by
      rcases hassign with ⟨h1, h2⟩ | ⟨h1, h2⟩
      · exact h2 ▸ hgB
      · exact h2 ▸ hgA
    have habsum : (toP a).roots + (toP b).roots =
        (toP (seedA halfp f)).roots + (toP (seedB halfp f)).roots := by
      rcases hassign with ⟨h1, h2⟩ | ⟨h1, h2⟩
      · rw [h1, h2]
      · rw [h1, h2]
        exact add_comm _ _
    have hla : a.length ≤ f.length := by
      rcases hassign with ⟨h1, h2⟩ | ⟨h1, h2⟩
      · exact h1 ▸ hlA
      · exact h1 ▸ hlB
    have hlb : b.length ≤ f.length := by
      rcases hassign with ⟨h1, h2⟩ | ⟨h1, h2⟩
      · exact h2 ▸ hlB
      · exact h2 ▸ hlA
    have hst_sum : ((generalSeed halfp f).map fun s => (toP s).roots).sum =
        (toP (seedA halfp f)).roots + (toP (seedB halfp f)).roots := by
      rw [hgs, ← habsum]
      by_cases h : 0 < degI b
      · rw [if_pos h]
        simp only [List.map_cons, List.map_nil, List.sum_cons, List.sum_nil,
          add_zero]
        exact add_comm _ _
      · rw [if_neg h]
        have hb1 : b = [1] := by
          obtain ⟨hnb2, hmb2, hbne2, h4, h5⟩ := hGb
          have hlb1 : b.length ≤ 1 := by
            by_contra hcon
            apply h
            unfold degI
            push_neg at hcon
            have : (2 : ℤ) ≤ (b.length : ℤ) := by exact_mod_cast hcon
            omega
          cases b with
          | nil => exact absurd rfl hbne2
          | cons x t =>
            cases t with
            | nil =>
              have hx : x = 1 := monicL_length_one hmb2
              rw [hx]
            | cons y t2 => simp at hlb1
        rw [hb1]
        simp only [List.map_cons, List.map_nil, List.sum_cons, List.sum_nil,
          add_zero, roots_toP_one]
    have hst_good : ∀ s ∈ generalSeed halfp f, GoodElem s := by
      rw [hgs]
      by_cases h : 0 < degI b
      · rw [if_pos h]
        intro s hsm
        rcases List.mem_cons.mp hsm with h1 | h1
        · exact h1 ▸ hGb
        · rcases List.mem_cons.mp h1 with h2 | h2
          · exact h2 ▸ hGa
          · cases h2
      · rw [if_neg h]
        intro s hsm
        rcases List.mem_cons.mp hsm with h1 | h1
        · exact h1 ▸ hGa
        · cases h1
    have hst_meas : drainMeasure (generalSeed halfp f) ≤ 4 * f.length + 4 := by
      have hmu : ∀ s : Poly p,
          (if s.length ≤ 1 then 1 else 2 * s.length - 3) ≤ 2 * s.length + 1 := by
        intro s
        by_cases h : s.length ≤ 1
        · rw [if_pos h]
          omega
        · rw [if_neg h]
          omega
      rw [hgs]
      by_cases h : 0 < degI b
      · rw [if_pos h]
        unfold drainMeasure
        simp only [List.map_cons, List.map_nil, List.sum_cons, List.sum_nil,
          add_zero]
        have h1 := hmu b
        have h2 := hmu a
        omega
      · rw [if_neg h]
        unfold drainMeasure
        simp only [List.map_cons, List.map_nil, List.sum_cons, List.sum_nil,
          add_zero]
        have h2 := hmu a
        omega
    obtain ⟨out, hdr, hprops, hsumout⟩ :=
      drain_spec hs mult (4 * f.length + 4) (generalSeed halfp f) hst_good
        hst_meas
    rw [hst_sum] at hsumout
    refine ⟨out, ?_, pushOut_of_parts hn hfne hprops ?_ ?_⟩
    · unfold pushPost
      rw [if_neg (by omega)]
      exact hdr
    · rw [← Multiset.coe_nodup, hsumout]
      exact hnodup
    · intro r
      rw [← Multiset.mem_coe, hsumout]
      exact hmem r

theorem filterMap_if {β : Type} (l : List ℕ) (P : ℕ → Prop) [DecidablePred P]
    (g : ℕ → β) :
    (l.filterMap fun n => if P n then some (g n) else none) =
      (l.filter fun n => decide (P n)).map g := by
  induction l with
  | nil => rfl
  | cons a t ih =>
    by_cases h : P a <;> simp [List.filterMap_cons, List.filter_cons, h, ih]

/-- The tiny-field brute-force output, rewritten as a map over the filtered
ascending list of field-element representatives. -/
theorem tiny_out_eq (mult : ℕ) (f : Poly p) :
    ((List.range p).filterMap fun n : ℕ =>
      if evalL ((n : ℕ) : ZMod p) f = 0 then
        some ((([-((n : ℕ) : ZMod p), 1] : Poly p), mult) : Fac p)
      else none) =
      ((List.range p).filter fun n : ℕ =>
          decide (evalL ((n : ℕ) : ZMod p) f = 0)).map
        fun n : ℕ => ((([-((n : ℕ) : ZMod p), 1] : Poly p), mult) : Fac p) :=
  filterMap_if (List.range p) _ _

theorem tiny_roots_map (mult : ℕ) (l : List ℕ) :
    (l.map fun n : ℕ => ((([-((n : ℕ) : ZMod p), 1] : Poly p), mult) : Fac p)).map
        (fun ge => rootOf ge.1) =
      l.map fun n : ℕ => ((n : ℕ) : ZMod p) := by
  rw [List.map_map]
  apply List.map_congr_left
  intro n hn
  simp [rootOf]

theorem tiny_spec [Fact p.Prime] (hp : p < 10) (mult : ℕ) {f : Poly p}
    (hn : Normalized f) (hfne : f ≠ []) :
    PushOut mult f
      ((List.range p).filterMap fun n : ℕ =>
        if evalL ((n : ℕ) : ZMod p) f = 0 then
          some ((([-((n : ℕ) : ZMod p), 1] : Poly p), mult) : Fac p)
        else none) := by
  haveI : NeZero p := ⟨(Fact.out : p.Prime).ne_zero⟩
  rw [tiny_out_eq]
  have hmapped := tiny_roots_map (p := p) mult
    ((List.range p).filter fun n => decide (evalL (n : ZMod p) f = 0))
  apply pushOut_of_parts hn hfne
  · intro ge hge
    obtain ⟨n, hnmem, hge⟩ := List.mem_map.mp hge
    subst hge
    exact ⟨rfl, rfl, rfl, normalized_pair one_ne_zero⟩
  · rw [hmapped]
    apply List.Nodup.map_on
    · intro x hx y hy hxy
      have hxr : x < p := List.mem_range.mp (List.mem_filter.mp hx).1
      have hyr : y < p := List.mem_range.mp (List.mem_filter.mp hy).1
      have := congrArg ZMod.val hxy
      rwa [ZMod.val_cast_of_lt hxr, ZMod.val_cast_of_lt hyr] at this
    · exact (List.nodup_range p).filter _
  · intro r
    rw [hmapped]
    constructor
    · intro hr
      obtain ⟨n, hnmem, hnr⟩ := List.mem_map.mp hr
      have := of_decide_eq_true (List.mem_filter.mp hnmem).2
      rwa [hnr] at this
    · intro hr
      apply List.mem_map.mpr
      refine ⟨r.val, List.mem_filter.mpr ⟨List.mem_range.mpr (ZMod.val_lt r), ?_⟩,
        ZMod.natCast_zmod_val r⟩
      apply decide_eq_true
      rwa [ZMod.natCast_zmod_val r]

theorem fmpz_mod_poly_push_roots_tiny (split : Poly p → Poly p × Poly p)
    (halfp mult : ℕ) (f : Poly p) (hp : p < 10) :
    fmpz_mod_poly_push_roots split halfp mult f =
      some ((List.range p).filterMap fun n : ℕ =>
        if evalL ((n : ℕ) : ZMod p) f = 0 then
          some ((([-((n : ℕ) : ZMod p), 1] : Poly p), mult) : Fac p)
        else none) := by
  unfold fmpz_mod_poly_push_roots
  rw [if_pos hp]

theorem fmpz_mod_poly_push_roots_strip (split : Poly p → Poly p × Poly p)
    (halfp mult : ℕ) (f : Poly p) (hp : ¬p < 10) (hz : f.headI = 0) :
    fmpz_mod_poly_push_roots split halfp mult f =
      (pushPost split halfp mult
          (f.drop (f.takeWhile fun c => decide (c = 0)).length)).map
        fun out => (([0, 1], mult) : Fac p) :: out := by
  unfold fmpz_mod_poly_push_roots
  rw [if_neg hp, if_pos hz]

theorem fmpz_mod_poly_push_roots_plain (split : Poly p → Poly p × Poly p)
    (halfp mult : ℕ) (f : Poly p) (hp : ¬p < 10) (hz : ¬f.headI = 0) :
    fmpz_mod_poly_push_roots split halfp mult f =
      pushPost split halfp mult f := by
  unfold fmpz_mod_poly_push_roots
  rw [if_neg hp, if_neg hz]

theorem push_roots_spec [Fact p.Prime] {split : Poly p → Poly p × Poly p}
    (hs : SplitOK p split) {halfp : ℕ}
    (hhalf : ¬p < 10 → 2 * halfp = p - 1) (mult : ℕ)
    {f : Poly p} (hn : Normalized f) (hm : MonicL f) (hlen : 2 ≤ f.length) :
    ∃ out, fmpz_mod_poly_push_roots split halfp mult f = some out ∧
      PushOut mult f out := by
  have hfne : f ≠ [] := by
    intro h
    rw [h] at hlen
    simp at hlen
  by_cases hp : p < 10
  · rw [fmpz_mod_poly_push_roots_tiny split halfp mult f hp]
    exact ⟨_, rfl, tiny_spec hp mult hn hfne⟩
  · by_cases hz : f.headI = 0
    · -- zero-root stripping
      set k := (f.takeWhile fun c => decide (c = 0)).length with hk
      have hkdrop : f.drop k ≠ [] := by
        intro hdz
        have := toP_strip f
        rw [← hk, hdz, toP_nil, mul_zero] at this
        exact toP_ne_zero hn hfne this
      have hklt : k < f.length := by
        by_contra hcon
        exact hkdrop (List.drop_eq_nil_of_le (Nat.le_of_not_lt hcon))
      have hk1 : 1 ≤ k := by
        cases f with
        | nil => exact absurd rfl hfne
        | cons c t =>
          have hc0 : c = 0 := hz
          rw [hk]
          rw [List.takeWhile_cons]
          simp [hc0]
      have hn1 : Normalized (f.drop k) := drop_normalized hn k
      have hm1 : MonicL (f.drop k) := by
        unfold MonicL
        rw [lead_drop k hklt]
        exact hm
      have hc1 : (f.drop k).headI ≠ 0 := by
        rw [hk, drop_takeWhile]
        apply headI_dropWhile_ne
        rw [← drop_takeWhile, ← hk]
        exact hkdrop
      obtain ⟨out0, hpp, hpo⟩ :=
        pushPost_spec hs (hhalf hp) mult hn1 hm1 hkdrop hc1
      rw [fmpz_mod_poly_push_roots_strip split halfp mult f hp hz, ← hk, hpp]
      obtain ⟨hprops0, hnd0, hmem0, hcnt0⟩ := hpo
      have hstripev : ∀ r : ZMod p,
          evalL r f = r ^ k * evalL r (f.drop k) := by
        intro r
        rw [evalL_toP, evalL_toP, toP_strip f, ← hk, eval_mul, eval_pow,
          eval_X]
      refine ⟨_, rfl, ?_, ?_, ?_, ?_⟩
      · intro ge hge
        rcases List.mem_cons.mp hge with h1 | h1
        · subst h1
          exact ⟨rfl, rfl, monicL_zero_one, normalized_pair one_ne_zero⟩
        · exact hprops0 ge h1
      · simp only [List.map_cons]
        rw [List.nodup_cons]
        constructor
        · intro hmem
          have hr0 : rootOf ([0, 1] : Poly p) = 0 := by
            simp [rootOf]
          rw [hr0] at hmem
          have := (hmem0 0).mp hmem
          rw [evalL_zero_eq_headI] at this
          exact hc1 this
        · exact hnd0
      · intro r
        simp only [List.map_cons, List.mem_cons]
        have hr0 : rootOf ([0, 1] : Poly p) = 0 := by
          simp [rootOf]
        rw [hr0, hstripev r, hmem0 r]
        constructor
        · rintro (h1 | h1)
          · subst h1
            rw [zero_pow (by omega), zero_mul]
          · rw [h1, mul_zero]
        · intro h1
          rcases mul_eq_zero.mp h1 with h2 | h2
          · left
            exact pow_eq_zero_iff (by omega) |>.mp h2
          · right
            exact h2
      · have hdl : (f.drop k).length = f.length - k := List.length_drop k f
        simp only [List.length_cons]
        omega
    · rw [fmpz_mod_poly_push_roots_plain split halfp mult f hp hz]
      exact pushPost_spec hs (hhalf hp) mult hn hm hfne hz

theorem roots_eq_small (split : Poly p → Poly p × Poly p)
    (sqf : Poly p → List (Fac p)) (rprev : List (Fac p)) (f : Poly p)
    (flag : Bool) (h : f.length < 3) :
    fmpz_mod_poly_roots split sqf rprev f flag =
      (if f.length = 2 then some ([(makeMonic f, 1)], none)
       else if f.length = 0 then some ([], some zeroInputMsg)
       else some ([], none)) := by
  unfold fmpz_mod_poly_roots
  rw [if_pos h]

theorem roots_eq_big_true (split : Poly p → Poly p × Poly p)
    (sqf : Poly p → List (Fac p)) (rprev : List (Fac p)) (f : Poly p)
    (h : ¬f.length < 3) :
    fmpz_mod_poly_roots split sqf rprev f true =
      ((sqf f).foldlM (fun acc ge =>
          (fmpz_mod_poly_push_roots split ((p - 1) / 2) ge.2 ge.1).map
            fun out => acc ++ out) []).map
        (fun out => (out, none)) := by
  unfold fmpz_mod_poly_roots
  rw [if_neg h]
  rfl

theorem roots_eq_big_false (split : Poly p → Poly p × Poly p)
    (sqf : Poly p → List (Fac p)) (rprev : List (Fac p)) (f : Poly p)
    (h : ¬f.length < 3) :
    fmpz_mod_poly_roots split sqf rprev f false =
      (fmpz_mod_poly_push_roots split ((p - 1) / 2) 1 (makeMonic f)).map
        (fun out => (out, none)) := by
  unfold fmpz_mod_poly_roots
  rw [if_neg h]
  rfl

theorem halfp_eq [Fact p.Prime] (h : ¬p < 10) : 2 * ((p - 1) / 2) = p - 1 := by
  have hodd : Odd p := (Fact.out : p.Prime).odd_of_ne_two (by omega)
  obtain ⟨m, hm⟩ := hodd
  omega

theorem sum_exps_of_const {out : List (Fac p)} {mult : ℕ}
    (h : ∀ ge ∈ out, ge.2 = mult) :
    (out.map fun ge => ge.2).sum = out.length * mult := by
  induction out with
  | nil => simp
  | cons ge t ih =>
    have h1 := h ge (List.mem_cons_self ge t)
    have h2 := ih fun x hx => h x (List.mem_cons_of_mem ge hx)
    simp only [List.map_cons, List.sum_cons, List.length_cons, h1, h2]
    ring

theorem plain_run_spec [Fact p.Prime] {split : Poly p → Poly p × Poly p}
    (hs : SplitOK p split) (sqf : Poly p → List (Fac p))
    (rprev : List (Fac p)) {f : Poly p} (hn : Normalized f) (hfne : f ≠ [])
    (hlen : 3 ≤ f.length) :
    ∃ out, fmpz_mod_poly_roots split sqf rprev f false = some (out, none) ∧
      (∀ ge ∈ out, ge.2 = 1 ∧ ge.1.length = 2 ∧ MonicL ge.1) ∧
      out.length + 1 ≤ f.length ∧
      (∀ r : ZMod p, (r ∈ out.map fun ge => rootOf ge.1) ↔ evalL r f = 0) := by
  have hnm : Normalized (makeMonic f) := normalized_makeMonic hn
  have hmm : MonicL (makeMonic f) := monicL_makeMonic hn hfne
  have hlm : (makeMonic f).length = f.length := makeMonic_length f
  have hmne : makeMonic f ≠ [] := makeMonic_ne_nil hfne
  by_cases hten : p < 10
  case pos =>
    obtain ⟨out, hpo, hprops, hnd, hmem, hcnt⟩ :=
      push_roots_spec hs (fun h => absurd hten h) 1 hnm hmm (by omega)
    refine ⟨out, ?_, ?_, ?_, ?_⟩
    · rw [roots_eq_big_false split sqf rprev f (by omega), hpo]
      rfl
    · exact fun ge hge => ⟨(hprops ge hge).1, (hprops ge hge).2.1,
        (hprops ge hge).2.2.1⟩
    · omega
    · intro r
      rw [hmem r]
      rw [evalL_toP, evalL_toP, toP_makeMonic, eval_mul, eval_C]
      constructor
      · intro h
        rcases mul_eq_zero.mp h with h1 | h1
        · exact absurd h1 (inv_ne_zero (lead_ne_zero hn hfne))
        · exact h1
      · intro h
        rw [h, mul_zero]
  case neg =>
    obtain ⟨out, hpo, hprops, hnd, hmem, hcnt⟩ :=
      push_roots_spec hs (fun _ => halfp_eq hten) 1 hnm hmm (by omega)
    refine ⟨out, ?_, ?_, ?_, ?_⟩
    · rw [roots_eq_big_false split sqf rprev f (by omega), hpo]
      rfl
    · exact fun ge hge => ⟨(hprops ge hge).1, (hprops ge hge).2.1,
        (hprops ge hge).2.2.1⟩
    · omega
    · intro r
      rw [hmem r]
      rw [evalL_toP, evalL_toP, toP_makeMonic, eval_mul, eval_C]
      constructor
      · intro h
        rcases mul_eq_zero.mp h with h1 | h1
        · exact absurd h1 (inv_ne_zero (lead_ne_zero hn hfne))
        · exact h1
      · intro h
        rw [h, mul_zero]

theorem evalL_makeMonic_iff [Fact p.Prime] {f : Poly p} (hn : Normalized f)
    (hfne : f ≠ []) (r : ZMod p) :
    evalL r (makeMonic f) = 0 ↔ evalL r f = 0 := by
  rw [evalL_toP, evalL_toP, toP_makeMonic, eval_mul, eval_C]
  constructor
  · intro h
    rcases mul_eq_zero.mp h with h1 | h1
    · exact absurd h1 (inv_ne_zero (lead_ne_zero hn hfne))
    · exact h1
  · intro h
    rw [h, mul_zero]

theorem foldlM_push_spec (split : Poly p → Poly p × Poly p) (halfp : ℕ) :
    ∀ (l : List (Fac p)) (acc : List (Fac p)),
      (∀ ge ∈ l, ∃ out,
        fmpz_mod_poly_push_roots split halfp ge.2 ge.1 = some out ∧
          PushOut ge.2 ge.1 out) →
      ∃ parts : List (List (Fac p)),
        List.Forall₂ (fun (ge : Fac p) out => PushOut ge.2 ge.1 out) l parts ∧
        l.foldlM (fun acc ge =>
            (fmpz_mod_poly_push_roots split halfp ge.2 ge.1).map
              fun out => acc ++ out) acc =
          some (acc ++ parts.flatten) := by
  intro l
  induction l with
  | nil =>
    intro acc h
    exact ⟨[], List.Forall₂.nil, by simp⟩
  | cons ge t ih =>
    intro acc h
    obtain ⟨out, hpo, hP⟩ := h ge (List.mem_cons_self ge t)
    obtain ⟨parts, hF, hfold⟩ :=
      ih (acc ++ out) fun x hx => h x (List.mem_cons_of_mem _ hx)
    refine ⟨out :: parts, List.Forall₂.cons hP hF, ?_⟩
    rw [List.foldlM_cons, hpo]
    show (some (acc ++ out) >>= fun acc2 => _) = _
    rw [Option.bind_eq_bind, Option.some_bind, hfold, List.flatten_cons,
      ← List.append_assoc]

theorem parts_exp_sum [Fact p.Prime] :
    ∀ (l : List (Fac p)) (parts : List (List (Fac p))),
      List.Forall₂ (fun (ge : Fac p) out => PushOut ge.2 ge.1 out) l parts →
      (parts.flatten.map fun ge => ge.2).sum ≤
        (l.map fun ge => ge.2 * (ge.1.length - 1)).sum := by
  intro l parts h
  induction h with
  | nil => simp
  | cons hP hF ih =>
    rename_i ge out t parts2
    simp only [List.flatten_cons, List.map_append, List.sum_append,
      List.map_cons, List.sum_cons]
    obtain ⟨hprops, hnd, hmem, hcnt⟩ := hP
    have hsum : (out.map fun x => x.2).sum = out.length * ge.2 :=
      sum_exps_of_const fun x hx => (hprops x hx).1
    have hle : out.length * ge.2 ≤ (ge.1.length - 1) * ge.2 :=
      Nat.mul_le_mul_right _ (by omega)
    calc (out.map fun x => x.2).sum + (parts2.flatten.map fun x => x.2).sum
        ≤ (ge.1.length - 1) * ge.2 +
          (t.map fun x => x.2 * (x.1.length - 1)).sum := by
          rw [hsum]
          omega
    _ = ge.2 * (ge.1.length - 1) +
          (t.map fun x => x.2 * (x.1.length - 1)).sum := by
          rw [Nat.mul_comm]

theorem parts_entry [Fact p.Prime] :
    ∀ (l : List (Fac p)) (parts : List (List (Fac p))),
      List.Forall₂ (fun (ge : Fac p) out => PushOut ge.2 ge.1 out) l parts →
      ∀ ge2 ∈ parts.flatten, ∃ gf, gf ∈ l ∧ ge2.2 = gf.2 ∧
        ge2.1.length = 2 ∧ MonicL ge2.1 ∧ evalL (rootOf ge2.1) gf.1 = 0 := by
  intro l parts h
  induction h with
  | nil => simp
  | cons hP hF ih =>
    rename_i ge out t parts2
    intro ge2 hge2
    rw [List.flatten_cons, List.mem_append] at hge2
    rcases hge2 with h1 | h1
    · obtain ⟨hprops, hnd, hmem, hcnt⟩ := hP
      obtain ⟨he, hl, hmo, hno⟩ := hprops ge2 h1
      refine ⟨ge, List.mem_cons_self _ _, he, hl, hmo, ?_⟩
      exact (hmem (rootOf ge2.1)).mp
        (List.mem_map.mpr ⟨ge2, h1, rfl⟩)
    · obtain ⟨gf, hgl, hrest⟩ := ih ge2 h1
      exact ⟨gf, List.mem_cons_of_mem _ hgl, hrest⟩

theorem parts_mem_iff [Fact p.Prime] :
    ∀ (l : List (Fac p)) (parts : List (List (Fac p))),
      List.Forall₂ (fun (ge : Fac p) out => PushOut ge.2 ge.1 out) l parts →
      ∀ r : ZMod p,
        (r ∈ parts.flatten.map fun ge => rootOf ge.1) ↔
          ∃ gf ∈ l, evalL r gf.1 = 0 := by
  intro l parts h
  induction h with
  | nil => simp
  | cons hP hF ih =>
    rename_i ge out t parts2
    intro r
    rw [List.flatten_cons, List.map_append, List.mem_append]
    obtain ⟨hprops, hnd, hmem, hcnt⟩ := hP
    rw [hmem r, ih r]
    constructor
    · rintro (h1 | ⟨gf, hgl, hgf⟩)
      · exact ⟨ge, List.mem_cons_self _ _, h1⟩
      · exact ⟨gf, List.mem_cons_of_mem _ hgl, hgf⟩
    · rintro ⟨gf, hgl, hgf⟩
      rcases List.mem_cons.mp hgl with h1 | h1
      · exact Or.inl (h1 ▸ hgf)
      · exact Or.inr ⟨gf, h1, hgf⟩

theorem prod_natDegree [Fact p.Prime] :
    ∀ l : List (Fac p),
      (∀ ge ∈ l, Normalized ge.1 ∧ MonicL ge.1 ∧ ge.1 ≠ []) →
      ((l.map fun ge => toP ge.1 ^ ge.2).prod).Monic ∧
      ((l.map fun ge => toP ge.1 ^ ge.2).prod).natDegree =
        (l.map fun ge => ge.2 * (ge.1.length - 1)).sum := by
  intro l
  induction l with
  | nil =>
    intro h
    simp [monic_one]
  | cons ge t ih =>
    intro h
    obtain ⟨hn, hm, hne⟩ := h ge (List.mem_cons_self ge t)
    obtain ⟨ihm, ihd⟩ := ih fun x hx => h x (List.mem_cons_of_mem _ hx)
    have hmon : (toP ge.1).Monic := monicL_toP hn hne hm
    have hpow : (toP ge.1 ^ ge.2).Monic := hmon.pow _
    constructor
    · simp only [List.map_cons, List.prod_cons]
      exact hpow.mul ihm
    · simp only [List.map_cons, List.prod_cons, List.sum_cons]
      rw [natDegree_mul hpow.ne_zero ihm.ne_zero, natDegree_pow,
        natDegree_toP hn hne, ihd]

theorem mult_run_spec [Fact p.Prime] {split : Poly p → Poly p × Poly p}
    (hs : SplitOK p split) {sqf : Poly p → List (Fac p)}
    (hsq : SqfOK p sqf) (rprev : List (Fac p)) {f : Poly p}
    (hn : Normalized f) (hfne : f ≠ []) (hlen : 3 ≤ f.length) :
    ∃ out, fmpz_mod_poly_roots split sqf rprev f true = some (out, none) ∧
      (out.map fun ge => ge.2).sum + 1 ≤ f.length ∧
      (∀ ge ∈ out,
        ge.1.length = 2 ∧ MonicL ge.1 ∧ evalL (rootOf ge.1) f = 0) ∧
      (∀ r : ZMod p,
        (r ∈ out.map fun ge => rootOf ge.1) ↔ evalL r f = 0) := by
  obtain ⟨hfac, hprod⟩ := hsq f hn hlen
  have hfacne : ∀ ge ∈ sqf f, ge.1 ≠ [] := by
    intro ge hge hnil
    have := (hfac ge hge).2.2.1
    rw [hnil] at this
    simp at this
  have hall : ∀ ge ∈ sqf f, ∃ out,
      fmpz_mod_poly_push_roots split ((p - 1) / 2) ge.2 ge.1 = some out ∧
        PushOut ge.2 ge.1 out := by
    intro ge hge
    obtain ⟨hgn, hgm, hgl, hge1⟩ := hfac ge hge
    exact push_roots_spec hs (fun hp => halfp_eq hp) ge.2 hgn hgm hgl
  obtain ⟨parts, hF, hfold⟩ := foldlM_push_spec split _ (sqf f) [] hall
  have hdvd_mm : ∀ gf ∈ sqf f, toP gf.1 ∣ toP (makeMonic f) := by
    intro gf hgfl
    rw [← hprod]
    have hmp : toP gf.1 ^ gf.2 ∈ (sqf f).map fun ge => toP ge.1 ^ ge.2 :=
      List.mem_map.mpr ⟨gf, hgfl, rfl⟩
    have he1 : 1 ≤ gf.2 := (hfac gf hgfl).2.2.2
    exact (dvd_pow_self (toP gf.1) (by omega : gf.2 ≠ 0)).trans
      (List.dvd_prod hmp)
  refine ⟨parts.flatten, ?_, ?_, ?_, ?_⟩
  · rw [roots_eq_big_true split sqf rprev f (by omega), hfold]
    rfl
  · have h1 := parts_exp_sum _ _ hF
    have h2 := (prod_natDegree (sqf f) fun ge hge =>
      ⟨(hfac ge hge).1, (hfac ge hge).2.1, hfacne ge hge⟩).2
    rw [hprod] at h2
    have h3 : (toP (makeMonic f)).natDegree = f.length - 1 := by
      rw [natDegree_toP (normalized_makeMonic hn) (makeMonic_ne_nil hfne),
        makeMonic_length]
    omega
  · intro ge hge
    obtain ⟨gf, hgfl, hexp, hlen2, hmon2, hroot⟩ := parts_entry _ _ hF ge hge
    refine ⟨hlen2, hmon2, ?_⟩
    have h0 : evalL (rootOf ge.1) (makeMonic f) = 0 :=
      evalL_of_dvd (hdvd_mm gf hgfl) hroot
    exact (evalL_makeMonic_iff hn hfne _).mp h0
  · intro r
    rw [parts_mem_iff _ _ hF r]
    constructor
    · rintro ⟨gf, hgfl, hev⟩
      exact (evalL_makeMonic_iff hn hfne r).mp
        (evalL_of_dvd (hdvd_mm gf hgfl) hev)
    · intro hev
      have h0 : evalL r (makeMonic f) = 0 :=
        (evalL_makeMonic_iff hn hfne r).mpr hev
      rw [evalL_toP, ← hprod, eval_list_prod] at h0
      obtain ⟨q0, hq0m, hq0⟩ := List.mem_map.mp (List.prod_eq_zero_iff.mp h0)
      obtain ⟨gf, hgfl, hgf⟩ := List.mem_map.mp hq0m
      rw [← hgf, eval_pow] at hq0
      have he1 : 1 ≤ gf.2 := (hfac gf hgfl).2.2.2
      have hev0 : eval r (toP gf.1) = 0 :=
        pow_eq_zero_iff (by omega : gf.2 ≠ 0) |>.mp hq0
      refine ⟨gf, hgfl, ?_⟩
      rw [evalL_toP]
      exact hev0

theorem sqfTrivial_ok [Fact p.Prime] : SqfOK p (sqfTrivial (p := p)) := by
  intro f hn hlen
  have hfne : f ≠ [] := by
    intro h
    rw [h] at hlen
    simp at hlen
  constructor
  · intro ge hge
    rw [sqfTrivial, List.mem_singleton] at hge
    subst hge
    refine ⟨normalized_makeMonic hn, monicL_makeMonic hn hfne, ?_, le_rfl⟩
    show 2 ≤ (makeMonic f).length
    rw [makeMonic_length]
    omega
  · show ([toP (makeMonic f) ^ 1]).prod = toP (makeMonic f)
    simp

theorem toP_neg_linear (r0 : ZMod p) :
    toP ([-r0, 1] : Poly p) = X - C r0 := by
  simp [toP_cons]
  ring

theorem defaultSplit_ok [Fact p.Prime] : SplitOK p (defaultSplit (p := p)) := by
  intro f hn hm hlen hnd hcard
  haveI : NeZero p := ⟨(Fact.out : p.Prime).ne_zero⟩
  have hfne : f ≠ [] := by
    intro h
    rw [h] at hlen
    simp at hlen
  have hf0 : toP f ≠ 0 := toP_ne_zero hn hfne
  have hdegf : (toP f).natDegree = f.length - 1 := natDegree_toP hn hfne
  -- a root exists
  have hex : ∃ x ∈ List.range p,
      (fun n : ℕ => decide (evalL ((n : ℕ) : ZMod p) f = 0)) x = true := by
    have hpos : 0 < Multiset.card (toP f).roots := by omega
    have hne0 : (toP f).roots ≠ 0 := by
      intro h
      rw [h] at hpos
      simp at hpos
    obtain ⟨r, hr⟩ := Multiset.exists_mem_of_ne_zero hne0
    have hev : evalL r f = 0 := (mem_roots_toP hn hfne).mp hr
    refine ⟨r.val, List.mem_range.mpr (ZMod.val_lt r), ?_⟩
    apply decide_eq_true
    rwa [ZMod.natCast_zmod_val]
  obtain ⟨n, hfind⟩ := List.find?_isSome.mpr hex |> Option.isSome_iff_exists.mp
  have hpred := List.find?_some hfind
  have hev : evalL ((n : ℕ) : ZMod p) f = 0 := of_decide_eq_true hpred
  have hds : defaultSplit f =
      (pdiv f [-((n : ℕ) : ZMod p), 1], [-((n : ℕ) : ZMod p), 1]) := by
    unfold defaultSplit
    rw [hfind]
  set r0 : ZMod p := ((n : ℕ) : ZMod p) with hr0
  have hnd2 : Normalized ([-r0, 1] : Poly p) := normalized_pair one_ne_zero
  have hdne : ([-r0, 1] : Poly p) ≠ [] := by simp
  obtain ⟨hq, hr, hrl, hdiv⟩ := pdivMod_spec hn hnd2 hdne
  have hdlin : toP ([-r0, 1] : Poly p) = X - C r0 := toP_neg_linear r0
  -- the remainder vanishes
  have hrem0 : pmod f [-r0, 1] = [] := by
    rcases hrem : pmod f [-r0, 1] with - | ⟨c, t⟩
    · rfl
    · exfalso
      have hlen2 : (pmod f [-r0, 1]).length < 2 := by
        simpa using hrl
      rw [hrem] at hlen2
      have ht : t = [] := by
        cases t with
        | nil => rfl
        | cons x t2 =>
          simp only [List.length_cons] at hlen2
          omega
      subst ht
      have hcne : c ≠ 0 := by
        have := normalized_cons (hrem ▸ hr)
        exact this.2 rfl
      have heval := congrArg (eval r0) hdiv
      rw [eval_add, eval_mul, hdlin] at heval
      simp only [eval_sub, eval_X, eval_C, sub_self, mul_zero, zero_add]
        at heval
      rw [hrem] at heval
      have hC : toP ([c] : Poly p) = C c := by simp [toP_cons]
      rw [hC, eval_C] at heval
      rw [evalL_toP] at hev
      rw [hev] at heval
      exact hcne heval
  have hprodeq : toP (pdiv f [-r0, 1]) * toP [-r0, 1] = toP f := by
    have := hdiv
    rw [hrem0, toP_nil, add_zero] at this
    exact this
  have hqne : toP (pdiv f [-r0, 1]) ≠ 0 := by
    intro h
    rw [h, zero_mul] at hprodeq
    exact hf0 hprodeq.symm
  have hqne2 : pdiv f [-r0, 1] ≠ [] := by
    intro h
    apply hqne
    rw [h, toP_nil]
  have hdmon : (toP ([-r0, 1] : Poly p)).Monic := by
    rw [toP_neg_linear r0]
    exact monic_X_sub_C r0
  have hqmon : (toP (pdiv f [-r0, 1])).Monic := by
    have hfm : (toP f).Monic := monicL_toP hn hfne hm
    have hprodm : (toP (pdiv f [-r0, 1]) * toP [-r0, 1]).Monic := by
      rw [hprodeq]
      exact hfm
    exact hdmon.of_mul_monic_right hprodm
  have hqmonL : MonicL (pdiv f [-r0, 1]) := by
    unfold MonicL
    rw [← leadingCoeff_toP hq hqne2]
    exact hqmon
  have hdlen : ([-r0, 1] : Poly p).length = 2 := rfl
  have hqlen : (pdiv f [-r0, 1]).length = f.length - 1 := by
    have h1 := length_toP hq hqne2
    have hdne0 : toP ([-r0, 1] : Poly p) ≠ 0 := by
      rw [toP_neg_linear r0]
      exact X_sub_C_ne_zero r0
    have h2 := natDegree_mul hqne hdne0
    rw [hprodeq] at h2
    have h3 : (toP ([-r0, 1] : Poly p)).natDegree = 1 := by
      rw [hdlin]
      exact natDegree_X_sub_C r0
    omega
  rw [hds]
  refine ⟨hq, hqmonL, hnd2, ?_, hprodeq, ?_, ?_⟩
  · show lead ([-r0, 1] : Poly p) = 1
    rfl
  · rw [hdlen]
  · rw [hdlen, hqlen]
    omega

theorem evalL_rootOf_monic_linear {g : Poly p} (hg : g.length = 2)
    (hm : MonicL g) : evalL (rootOf g) g = 0 := by
  obtain ⟨c, d, hcd⟩ : ∃ c d, g = [c, d] := by
    cases g with
    | nil => simp at hg
    | cons a t =>
      cases t with
      | nil => simp at hg
      | cons b t2 =>
        cases t2 with
        | nil => exact ⟨a, b, rfl⟩
        | cons e t3 => simp at hg
  subst hcd
  have hd1 : d = 1 := monicL_length_two hm
  subst hd1
  show c + rootOf [c, 1] * (1 + rootOf [c, 1] * 0) = 0
  show c + -c * (1 + -c * 0) = 0
  ring

/-- C1.  For every nonzero input polynomial f (degree at least 0), under
the contracts of the external randomized splitter and of the squarefree
factorization, `fmpz_mod_poly_roots` returns without error, the exponents of
the reported factors sum to at most deg f, and every reported entry is a
monic linear factor x - r with f(r) = 0 — the output multiset is sound. -/
theorem c1_roots_sound [Fact p.Prime] {split : Poly p → Poly p × Poly p}
    {sqf : Poly p → List (Fac p)} (hs : SplitOK p split) (hsq : SqfOK p sqf)
    (rprev : List (Fac p)) (flag : Bool) {f : Poly p} (hn : Normalized f)
    (hfne : f ≠ []) :
    ∃ out, fmpz_mod_poly_roots split sqf rprev f flag = some (out, none) ∧
      (out.map fun ge => ge.2).sum + 1 ≤ f.length ∧
      ∀ ge ∈ out,
        ge.1.length = 2 ∧ MonicL ge.1 ∧ evalL (rootOf ge.1) f = 0 := by
  have hlen1 : 1 ≤ f.length := by
    cases f with
    | nil => exact absurd rfl hfne
    | cons a t => simp
  rcases Nat.lt_or_ge f.length 3 with hlen | hlen
  · rcases Nat.lt_or_ge f.length 2 with hl1 | hl2
    · -- degree 0
      have hfl : ¬f.length = 2 := by omega
      have hf0 : ¬f.length = 0 := by omega
      refine ⟨[], ?_, by simp; omega, by simp⟩
      rw [roots_eq_small split sqf rprev f flag hlen, if_neg hfl, if_neg hf0]
    · -- degree 1
      have hfl : f.length = 2 := by omega
      refine ⟨[(makeMonic f, 1)], ?_, by simp; omega, ?_⟩
      · rw [roots_eq_small split sqf rprev f flag hlen, if_pos hfl]
      · intro ge hge
        rw [List.mem_singleton] at hge
        subst hge
        have hmlen : (makeMonic f).length = 2 := by
          rw [makeMonic_length, hfl]
        have hmmon : MonicL (makeMonic f) := monicL_makeMonic hn hfne
        refine ⟨hmlen, hmmon, ?_⟩
        have h0 : evalL (rootOf (makeMonic f)) (makeMonic f) = 0 :=
          evalL_rootOf_monic_linear hmlen hmmon
        exact (evalL_makeMonic_iff hn hfne _).mp h0
  · cases flag with
    | true =>
      obtain ⟨out, hres, hsum, hent, hmem⟩ :=
        mult_run_spec hs hsq rprev hn hfne hlen
      exact ⟨out, hres, hsum, hent⟩
    | false =>
      obtain ⟨out, hres, hent, hcnt, hmem⟩ :=
        plain_run_spec hs sqf rprev hn hfne hlen
      refine ⟨out, hres, ?_, ?_⟩
      · have hsum : (out.map fun ge => ge.2).sum = out.length * 1 :=
          sum_exps_of_const fun ge hge => (hent ge hge).1
        rw [hsum]
        omega
      · intro ge hge
        refine ⟨(hent ge hge).2.1, (hent ge hge).2.2, ?_⟩
        exact (hmem (rootOf ge.1)).mp
          (List.mem_map.mpr ⟨ge, hge, rfl⟩)

/-- C1 witness: the theorem applied to f = x^2 - 1 over Z/11 with the
concrete contract-satisfying collaborators. -/
theorem c1_roots_sound_w :
    ∃ out, fmpz_mod_poly_roots (p := 11) defaultSplit sqfTrivial []
        [10, 0, 1] true = some (out, none) ∧
      (out.map fun ge => ge.2).sum + 1 ≤ ([10, 0, 1] : Poly 11).length ∧
      ∀ ge ∈ out, ge.1.length = 2 ∧ MonicL ge.1 ∧
        evalL (rootOf ge.1) ([10, 0, 1] : Poly 11) = 0 := by
  haveI : Fact (Nat.Prime 11) := ⟨by norm_num⟩
  exact c1_roots_sound defaultSplit_ok sqfTrivial_ok [] true (by decide)
    (by decide)

/-- C2 counterexample: with a nonempty output collection at entry and the
zero polynomial as input, the call raises the zero-input error but the
output collection afterwards is empty — not "unchanged from its state
before the call" as the claim asserts (`r->num = 0` precedes the throw). -/
theorem c2_prior_cleared_cex :
    fmpz_mod_poly_roots (p := 5) defaultSplit sqfTrivial [([2, 1], 3)] []
        true = some ([], some zeroInputMsg) ∧
      ([] : List (Fac 5)) ≠ [([2, 1], 3)] := by
  constructor
  · rfl
  · simp

/-- C2 amended: the zero-input error is raised exactly when f is the zero
polynomial, it propagates immediately, and on the error path the output
collection is observably empty (cleared, rather than preserved). -/
theorem c2_error_iff_zero (split : Poly p → Poly p × Poly p)
    (sqf : Poly p → List (Fac p)) (rprev : List (Fac p)) (f : Poly p)
    (flag : Bool) :
    (f = [] → fmpz_mod_poly_roots split sqf rprev f flag =
      some ([], some zeroInputMsg)) ∧
    (f ≠ [] → ∀ out e,
      fmpz_mod_poly_roots split sqf rprev f flag = some (out, e) →
        e = none) := by
  constructor
  · intro hf
    subst hf
    rfl
  · intro hf out e hres
    have hlen1 : 1 ≤ f.length := by
      cases f with
      | nil => exact absurd rfl hf
      | cons a t => simp
    rcases Nat.lt_or_ge f.length 3 with hlen | hlen
    · rw [roots_eq_small split sqf rprev f flag hlen] at hres
      by_cases h2 : f.length = 2
      · rw [if_pos h2] at hres
        cases hres
        rfl
      · rw [if_neg h2, if_neg (by omega)] at hres
        cases hres
        rfl
    · cases flag with
      | true =>
        rw [roots_eq_big_true split sqf rprev f (by omega)] at hres
        obtain ⟨x, hx1, hx2⟩ := Option.map_eq_some'.mp hres
        cases hx2
        rfl
      | false =>
        rw [roots_eq_big_false split sqf rprev f (by omega)] at hres
        obtain ⟨x, hx1, hx2⟩ := Option.map_eq_some'.mp hres
        cases hx2
        rfl

/-- C2 witness: the amended theorem applied at the zero polynomial over
Z/7 and at a nonzero polynomial over Z/7. -/
theorem c2_error_iff_zero_w :
    fmpz_mod_poly_roots (p := 7) defaultSplit sqfTrivial [] [] false =
      some ([], some zeroInputMsg) ∧
    ∀ out e, fmpz_mod_poly_roots (p := 7) defaultSplit sqfTrivial [] [3]
        false = some (out, e) → e = none := by
  constructor
  · exact (c2_error_iff_zero defaultSplit sqfTrivial [] [] false).1 rfl
  · exact (c2_error_iff_zero defaultSplit sqfTrivial [] [3] false).2
      (by decide)

/-- C7.  When f has degree exactly 1, the output is the single entry
consisting of the monic normalization of f with multiplicity 1 — for both
values of the `with_multiplicity` flag. -/
theorem c7_degree_one [Fact p.Prime] (split : Poly p → Poly p × Poly p)
    (sqf : Poly p → List (Fac p)) (rprev : List (Fac p)) (flag : Bool)
    {f : Poly p} (hn : Normalized f) (hlen : f.length = 2) :
    fmpz_mod_poly_roots split sqf rprev f flag =
      some ([(makeMonic f, 1)], none) ∧
    MonicL (makeMonic f) ∧ (makeMonic f).length = 2 := by
  have hfne : f ≠ [] := by
    intro h
    rw [h] at hlen
    simp at hlen
  refine ⟨?_, monicL_makeMonic hn hfne, by rw [makeMonic_length, hlen]⟩
  rw [roots_eq_small split sqf rprev f flag (by omega), if_pos hlen]

/-- C7 witness: the theorem applied to f = 2x + 5 over Z/13, for both
flags. -/
theorem c7_degree_one_w :
    (fmpz_mod_poly_roots (p := 13) defaultSplit sqfTrivial [] [5, 2] true =
       some ([(makeMonic [5, 2], 1)], none) ∧
     MonicL (makeMonic ([5, 2] : Poly 13)) ∧
     (makeMonic ([5, 2] : Poly 13)).length = 2) ∧
    (fmpz_mod_poly_roots (p := 13) defaultSplit sqfTrivial [] [5, 2] false =
       some ([(makeMonic [5, 2], 1)], none)) := by
  haveI : Fact (Nat.Prime 13) := ⟨by norm_num⟩
  refine ⟨c7_degree_one defaultSplit sqfTrivial [] true (by decide) (by decide),
    (c7_degree_one defaultSplit sqfTrivial [] false (by decide)
      (by decide)).1⟩

/-- C8.  For the same input f, running without multiplicities yields the
same set of distinct roots as running with multiplicities and discarding
them; the two runs may use different (contract-satisfying) splitters, i.e.
different draws of the random source. -/
theorem c8_mult_consistency [Fact p.Prime]
    {split1 split2 : Poly p → Poly p × Poly p} {sqf : Poly p → List (Fac p)}
    (hs1 : SplitOK p split1) (hs2 : SplitOK p split2) (hsq : SqfOK p sqf)
    (rprev1 rprev2 : List (Fac p)) {f : Poly p} (hn : Normalized f)
    (hfne : f ≠ []) :
    ∃ outT outF,
      fmpz_mod_poly_roots split1 sqf rprev1 f true = some (outT, none) ∧
      fmpz_mod_poly_roots split2 sqf rprev2 f false = some (outF, none) ∧
      ∀ r : ZMod p,
        (r ∈ outT.map fun ge => rootOf ge.1) ↔
          (r ∈ outF.map fun ge => rootOf ge.1) := by
  rcases Nat.lt_or_ge f.length 3 with hlen | hlen
  · have hlen1 : 1 ≤ f.length := by
      cases f with
      | nil => exact absurd rfl hfne
      | cons a t => simp
    by_cases h2 : f.length = 2
    · refine ⟨[(makeMonic f, 1)], [(makeMonic f, 1)], ?_, ?_, fun r => Iff.rfl⟩
      · rw [roots_eq_small split1 sqf rprev1 f true hlen, if_pos h2]
      · rw [roots_eq_small split2 sqf rprev2 f false hlen, if_pos h2]
    · refine ⟨[], [], ?_, ?_, fun r => Iff.rfl⟩
      · rw [roots_eq_small split1 sqf rprev1 f true hlen, if_neg h2,
          if_neg (by omega)]
      · rw [roots_eq_small split2 sqf rprev2 f false hlen, if_neg h2,
          if_neg (by omega)]
  · obtain ⟨outT, hresT, hsumT, hentT, hmemT⟩ :=
      mult_run_spec hs1 hsq rprev1 hn hfne hlen
    obtain ⟨outF, hresF, hentF, hcntF, hmemF⟩ :=
      plain_run_spec hs2 sqf rprev2 hn hfne hlen
    refine ⟨outT, outF, hresT, hresF, ?_⟩
    intro r
    rw [hmemT r, hmemF r]

/-- C8 witness: the theorem applied to f = x^2 - 1 over Z/11 with the
concrete collaborators on both runs. -/
theorem c8_mult_consistency_w :
    ∃ outT outF,
      fmpz_mod_poly_roots (p := 11) defaultSplit sqfTrivial [] [10, 0, 1]
          true = some (outT, none) ∧
      fmpz_mod_poly_roots (p := 11) defaultSplit sqfTrivial [] [10, 0, 1]
          false = some (outF, none) ∧
      ∀ r : ZMod 11,
        (r ∈ outT.map fun ge => rootOf ge.1) ↔
          (r ∈ outF.map fun ge => rootOf ge.1) := by
  haveI : Fact (Nat.Prime 11) := ⟨by norm_num⟩
  exact c8_mult_consistency defaultSplit_ok defaultSplit_ok sqfTrivial_ok
    [] [] (by decide) (by decide)

/-- C9.  The caller's polynomial f is passed `const` and is never written:
the `with_multiplicity` branch consumes the separately computed squarefree
factors and the other branch consumes the monic copy placed in the scratch
slot, so after the call the caller's f is unchanged. -/
theorem c9_input_preserved (split : Poly p → Poly p × Poly p)
    (sqf : Poly p → List (Fac p)) (flag : Bool) (s : CState p) :
    ∀ res ∈ rootsCall split sqf flag s, res.1.f = s.f := by
  intro res hres
  unfold rootsCall at hres
  rw [Option.mem_def] at hres
  obtain ⟨x, hx1, hx2⟩ := Option.map_eq_some'.mp hres
  rw [← hx2]

/-- C9 witness: the theorem applied to the degree-1 polynomial x over Z/13
with a nonempty prior output. -/
theorem c9_input_preserved_w :
    ∃ res ∈ rootsCall (p := 13) defaultSplit sqfTrivial false
        ⟨[0, 1], [([1, 1], 7)]⟩,
      res.1.f = ([0, 1] : Poly 13) := by
  refine ⟨(⟨[0, 1], [(makeMonic [0, 1], 1)]⟩, none), ?_, ?_⟩
  · rw [Option.mem_def]
    rfl
  · exact c9_input_preserved defaultSplit sqfTrivial false
      ⟨[0, 1], [([1, 1], 7)]⟩ _ (by rw [Option.mem_def]; rfl)

/-- C10.  The output collection is reset before the degree of f is even
examined: the result never depends on the collection's prior contents, on
any path, and on the zero-input error path the output is observably
empty. -/
theorem c10_output_cleared (split : Poly p → Poly p × Poly p)
    (sqf : Poly p → List (Fac p)) (rprev rprev2 : List (Fac p)) (f : Poly p)
    (flag : Bool) :
    fmpz_mod_poly_roots split sqf rprev f flag =
      fmpz_mod_poly_roots split sqf rprev2 f flag ∧
    fmpz_mod_poly_roots split sqf rprev [] flag =
      some ([], some zeroInputMsg) := ⟨rfl, rfl⟩

theorem stackInv_step [Fact p.Prime] {split : Poly p → Poly p × Poly p}
    (hsp : SplitOK p split) {st : List (Poly p)} (h : StackInv st) :
    StackInv (drainStep split st) := by
  obtain ⟨hg, hlen64, hslot⟩ := h
  cases st with
  | nil => exact ⟨hg, hlen64, hslot⟩
  | cons f rest =>
    by_cases hf2 : f.length ≤ 2
    · have hstep : drainStep split (f :: rest) = rest := by
        simp [drainStep, hf2]
      rw [hstep]
      have hlen' : rest.length + 1 ≤ wordBits := by
        simpa using hlen64
      refine ⟨fun g hgm => hg g (List.mem_cons_of_mem _ hgm),
        by omega, ?_⟩
      intro j hj
      have hj' : j + 1 < (f :: rest).length := by
        simp only [List.length_cons]
        omega
      have hold := hslot (j + 1) hj'
      have hexp : wordBits - ((f :: rest).length - 1 - (j + 1)) =
          wordBits - (rest.length - 1 - j) := by
        simp only [List.length_cons]
        omega
      rw [hexp] at hold
      exact hold
    · have hf3 : 3 ≤ f.length := by omega
      have hstep : drainStep split (f :: rest) =
          (split f).2 :: (split f).1 :: rest := by
        simp [drainStep, hf2]
      rw [hstep]
      have hgf : GoodElem f := hg f (List.mem_cons_self f rest)
      obtain ⟨hnf, hmf, hnef, hndf, hcf⟩ := hgf
      obtain ⟨hnc, hmc, hnd, hmd, hprod, hd2, hdc⟩ :=
        hsp f hnf hmf hf3 hndf hcf
      have hcne : (split f).1 ≠ [] := by
        intro hnil
        rw [hnil] at hdc
        simp only [List.length_nil] at hdc
        omega
      have hdne : (split f).2 ≠ [] := by
        intro hnil
        rw [hnil] at hd2
        simp at hd2
      have hgc : GoodElem (split f).1 :=
        goodElem_of_dvd ⟨hnf, hmf, hnef, hndf, hcf⟩ hnc hmc hcne
          ⟨toP (split f).2, hprod.symm⟩
      have hgd : GoodElem (split f).2 :=
        goodElem_of_dvd ⟨hnf, hmf, hnef, hndf, hcf⟩ hnd hmd hdne
          ⟨toP (split f).1, by rw [← hprod]; ring⟩
      have hsum : ((split f).1.length - 1) + ((split f).2.length - 1) =
          f.length - 1 := by
        have hc0 : toP (split f).1 ≠ 0 := toP_ne_zero hnc hcne
        have hd0 : toP (split f).2 ≠ 0 := toP_ne_zero hnd hdne
        have hmul := natDegree_mul hc0 hd0
        rw [hprod, natDegree_toP hnf hnef, natDegree_toP hnc hcne,
          natDegree_toP hnd hdne] at hmul
        omega
      have htop : f.length - 1 <
          2 ^ (wordBits - ((f :: rest).length - 1 - 0)) :=
        hslot 0 (by simp)
      have htop' : f.length - 1 < 2 ^ (wordBits - rest.length) := by
        have hexp : wordBits - ((f :: rest).length - 1 - 0) =
            wordBits - rest.length := by
          simp only [List.length_cons]
          omega
        rw [hexp] at htop
        exact htop
      have hw : wordBits = 64 := rfl
      have he2 : 2 ≤ wordBits - rest.length := by
        by_contra hcon
        push_neg at hcon
        have hle : (2 : ℕ) ^ (wordBits - rest.length) ≤ 2 ^ 1 :=
          Nat.pow_le_pow_right (by norm_num) (by omega)
        omega
      have hr62 : rest.length ≤ 62 := by omega
      have hsplit2 : 2 ^ (wordBits - rest.length) =
          2 * 2 ^ (wordBits - (rest.length + 1)) := by
        have : wordBits - rest.length = (wordBits - (rest.length + 1)) + 1 := by
          omega
        rw [this, pow_succ]
        ring
      refine ⟨?_, ?_, ?_⟩
      · intro g hgm
        rcases List.mem_cons.mp hgm with hgm | hgm
        · exact hgm ▸ hgd
        rcases List.mem_cons.mp hgm with hgm | hgm
        · exact hgm ▸ hgc
        · exact hg g (List.mem_cons_of_mem _ hgm)
      · simp only [List.length_cons]
        omega
      · intro j hj
        match j, hj with
        | 0, hj =>
          have hexp : wordBits -
              (((split f).2 :: (split f).1 :: rest).length - 1 - 0) =
              wordBits - (rest.length + 1) := by
            simp only [List.length_cons]
            omega
          show (split f).2.length - 1 <
            2 ^ (wordBits - (((split f).2 :: (split f).1 :: rest).length - 1 - 0))
          rw [hexp]
          have hdd : 2 * ((split f).2.length - 1) ≤ f.length - 1 := by
            omega
          omega
        | 1, hj =>
          have hexp : wordBits -
              (((split f).2 :: (split f).1 :: rest).length - 1 - 1) =
              wordBits - rest.length := by
            simp only [List.length_cons]
            omega
          show (split f).1.length - 1 <
            2 ^ (wordBits - (((split f).2 :: (split f).1 :: rest).length - 1 - 1))
          rw [hexp]
          omega
        | (j + 2), hj =>
          have hj' : j + 1 < (f :: rest).length := by
            simp only [List.length_cons] at hj ⊢
            omega
          have hold := hslot (j + 1) hj'
          have hexp : wordBits - ((f :: rest).length - 1 - (j + 1)) =
              wordBits -
                (((split f).2 :: (split f).1 :: rest).length - 1 - (j + 2)) := by
            simp only [List.length_cons]
            omega
          rw [hexp] at hold
          exact hold

theorem stackInv_iterate [Fact p.Prime] {split : Poly p → Poly p × Poly p}
    (hsp : SplitOK p split) {st₀ : List (Poly p)} (h : StackInv st₀) :
    ∀ n : ℕ, StackInv ((drainStep split)^[n] st₀) := by
  intro n
  induction n with
  | zero => simpa using h
  | succ n ih =>
    rw [Function.iterate_succ_apply']
    exact stackInv_step hsp ih

theorem stackInv_seed [Fact p.Prime] {halfp : ℕ} (hhalf : 2 * halfp = p - 1)
    {f : Poly p} (hn : Normalized f) (hm : MonicL f) (hc : f.headI ≠ 0)
    (hlen : 3 ≤ f.length) (hbound : f.length ≤ 2 ^ 63) :
    StackInv (generalSeed halfp f) := by
  obtain ⟨hgA, hgB, hnodup, hmem, hcard, hlenA, hlenB⟩ :=
    seedAB_spec hhalf hn hm hc hlen
  obtain ⟨a, b, hset, hdeg, hgs⟩ := generalSeed_cases halfp f
  have hab : (GoodElem a ∧ a.length ≤ f.length) ∧
      (GoodElem b ∧ b.length ≤ f.length) := by
    rcases Set.pair_eq_pair_iff.mp hset with ⟨ha, hb⟩ | ⟨ha, hb⟩ <;>
      subst ha <;> subst hb
    · exact ⟨⟨hgA, hlenA⟩, ⟨hgB, hlenB⟩⟩
    · exact ⟨⟨hgB, hlenB⟩, ⟨hgA, hlenA⟩⟩
  obtain ⟨⟨hga, hla⟩, ⟨hgb, hlb⟩⟩ := hab
  have hane : a ≠ [] := hga.2.2.1
  have hbne : b ≠ [] := hgb.2.2.1
  have ha63 : a.length - 1 < 2 ^ 63 :=
    Nat.lt_of_lt_of_le (Nat.sub_lt (List.length_pos.mpr hane) one_pos)
      (le_trans hla hbound)
  have hb63 : b.length - 1 < 2 ^ 63 :=
    Nat.lt_of_lt_of_le (Nat.sub_lt (List.length_pos.mpr hbne) one_pos)
      (le_trans hlb hbound)
  have ha64 : a.length - 1 < 2 ^ 64 :=
    lt_of_lt_of_le ha63 (Nat.pow_le_pow_right (by norm_num) (by norm_num))
  rw [hgs]
  by_cases h0 : 0 < degI b
  · rw [if_pos h0]
    refine ⟨?_, by simp [wordBits], ?_⟩
    · intro g hgm
      rcases List.mem_cons.mp hgm with hgm | hgm
      · exact hgm ▸ hgb
      rcases List.mem_cons.mp hgm with hgm | hgm
      · exact hgm ▸ hga
      · exact absurd hgm (List.not_mem_nil g)
    · intro j hj
      match j with
      | 0 => exact hb63
      | 1 => exact ha64
      | (j + 2) =>
        simp only [List.length_cons, List.length_nil] at hj
        omega
  · rw [if_neg h0]
    refine ⟨?_, by simp [wordBits], ?_⟩
    · intro g hgm
      rcases List.mem_cons.mp hgm with hgm | hgm
      · exact hgm ▸ hga
      · exact absurd hgm (List.not_mem_nil g)
    · intro j hj
      match j with
      | 0 => exact ha64
      | (j + 1) =>
        simp only [List.length_cons, List.length_nil] at hj
        omega

/-- C3.  Drain-loop stack invariant: on every state reachable from the
seeded stack (any number of iterations of the loop body, for any splitter
satisfying the contract): the bit count of the degree of the polynomial in
each occupied slot `i` is at most `wordBits - i`; consequently the stack
pointer stays within the slot capacity — after every pop `sp < wordBits`
(the popped slot index is in range), and a two-slot push only happens with
`sp + 1 < wordBits` (both written slot indices are in range). -/
theorem c3_stack_invariant [Fact p.Prime] {split : Poly p → Poly p × Poly p}
    (hsp : SplitOK p split) {halfp : ℕ} (hhalf : 2 * halfp = p - 1)
    {f : Poly p} (hn : Normalized f) (hm : MonicL f) (hc : f.headI ≠ 0)
    (hlen : 3 ≤ f.length) (hbound : f.length ≤ 2 ^ 63) (n : ℕ)
    {st : List (Poly p)}
    (hst : st = (drainStep split)^[n] (generalSeed halfp f)) :
    (∀ j (hj : j < st.length),
      Nat.size ((st.get ⟨j, hj⟩).length - 1) ≤
        wordBits - (st.length - 1 - j)) ∧
    (st ≠ [] → st.length - 1 < wordBits) ∧
    (∀ g rest, st = g :: rest → 3 ≤ g.length → st.length < wordBits) := by
  have hinv : StackInv st := by
    rw [hst]
    exact stackInv_iterate hsp (stackInv_seed hhalf hn hm hc hlen hbound) n
  obtain ⟨hg, hlen64, hslot⟩ := hinv
  have hw : wordBits = 64 := rfl
  refine ⟨fun j hj => Nat.size_le.mpr (hslot j hj), ?_, ?_⟩
  · intro hne
    have h1 : 1 ≤ st.length := List.length_pos.mpr hne
    omega
  · intro g rest hdecomp hg3
    subst hdecomp
    have hj : 0 < (g :: rest).length := by simp
    have h0 : g.length - 1 <
        2 ^ (wordBits - ((g :: rest).length - 1 - 0)) := hslot 0 hj
    by_contra hcon
    push_neg at hcon
    have hse : (g :: rest).length = wordBits := le_antisymm hlen64 hcon
    have hexp : wordBits - ((g :: rest).length - 1 - 0) ≤ 1 := by omega
    have hle : (2 : ℕ) ^ (wordBits - ((g :: rest).length - 1 - 0)) ≤ 2 ^ 1 :=
      Nat.pow_le_pow_right (by norm_num) hexp
    omega

/-- C3 witness: the invariant after one loop iteration for p = 11,
f = x^2 - 1, halfp = 5, with the concrete contract-satisfying splitter. -/
theorem c3_stack_invariant_w :
    (∀ j (hj : j < ((drainStep (p := 11) defaultSplit)^[1]
          (generalSeed 5 [10, 0, 1])).length),
      Nat.size ((((drainStep (p := 11) defaultSplit)^[1]
            (generalSeed 5 [10, 0, 1])).get ⟨j, hj⟩).length - 1) ≤
        wordBits - (((drainStep (p := 11) defaultSplit)^[1]
            (generalSeed 5 [10, 0, 1])).length - 1 - j)) ∧
    (((drainStep (p := 11) defaultSplit)^[1]
        (generalSeed 5 [10, 0, 1])) ≠ [] →
      ((drainStep (p := 11) defaultSplit)^[1]
          (generalSeed 5 [10, 0, 1])).length - 1 < wordBits) ∧
    (∀ g rest, ((drainStep (p := 11) defaultSplit)^[1]
          (generalSeed 5 [10, 0, 1])) = g :: rest → 3 ≤ g.length →
      ((drainStep (p := 11) defaultSplit)^[1]
          (generalSeed 5 [10, 0, 1])).length < wordBits) := by
  have hhalf : 2 * 5 = 11 - 1 := by norm_num
  have hn : Normalized ([10, 0, 1] : Poly 11) := by decide
  have hm : MonicL ([10, 0, 1] : Poly 11) := by decide
  have hc : ([10, 0, 1] : Poly 11).headI ≠ 0 := by decide
  have hlen : 3 ≤ ([10, 0, 1] : Poly 11).length := by decide
  have hbound : ([10, 0, 1] : Poly 11).length ≤ 2 ^ 63 := by
    norm_num
  haveI : Fact (Nat.Prime 11) := ⟨by norm_num⟩
  exact c3_stack_invariant defaultSplit_ok hhalf hn hm hc hlen hbound 1 rfl

/-- C4.  For p < 10 the splitting engine takes the tiny-field path: it
evaluates f at every field element in increasing order (the ascending list
of representatives 0..p-1), appends the monic linear factor x - x0 with the
caller-supplied exponent exactly for the elements x0 with f(x0) = 0, and
returns without reaching any later case — the result does not depend on
the splitter or on the exponent argument `halfp` of the later cases. -/
theorem c4_tiny_field [Fact p.Prime]
    (split split2 : Poly p → Poly p × Poly p) (halfp halfp2 mult : ℕ)
    {f : Poly p} (hp : p < 10) (hn : Normalized f) (hfne : f ≠ []) :
    fmpz_mod_poly_push_roots split halfp mult f =
      some (((List.range p).filter fun n : ℕ =>
          decide (evalL ((n : ℕ) : ZMod p) f = 0)).map
        fun n : ℕ => ((([-((n : ℕ) : ZMod p), 1] : Poly p), mult) : Fac p)) ∧
    fmpz_mod_poly_push_roots split halfp mult f =
      fmpz_mod_poly_push_roots split2 halfp2 mult f ∧
    ∃ out, fmpz_mod_poly_push_roots split halfp mult f = some out ∧
      (∀ r : ZMod p, (r ∈ out.map fun ge => rootOf ge.1) ↔ evalL r f = 0) ∧
      (out.map fun ge => rootOf ge.1).Nodup ∧
      ∀ ge ∈ out, ge.2 = mult ∧ ge.1.length = 2 ∧ MonicL ge.1 := by
  refine ⟨?_, ?_, ?_⟩
  · rw [fmpz_mod_poly_push_roots_tiny split halfp mult f hp, tiny_out_eq]
  · rw [fmpz_mod_poly_push_roots_tiny split halfp mult f hp,
      fmpz_mod_poly_push_roots_tiny split2 halfp2 mult f hp]
  · obtain ⟨hprops, hnd, hmem, hcnt⟩ := tiny_spec hp mult hn hfne
    refine ⟨_, fmpz_mod_poly_push_roots_tiny split halfp mult f hp,
      hmem, hnd, fun ge hge => ⟨(hprops ge hge).1, (hprops ge hge).2.1,
        (hprops ge hge).2.2.1⟩⟩

/-- C4 witness: the theorem applied to f = x^2 + 1 over Z/7 (which has no
roots there). -/
theorem c4_tiny_field_w :
    fmpz_mod_poly_push_roots (p := 7) defaultSplit 3 5 [1, 0, 1] =
      some (((List.range 7).filter fun n : ℕ =>
          decide (evalL ((n : ℕ) : ZMod 7) [1, 0, 1] = 0)).map
        fun n : ℕ => ((([-((n : ℕ) : ZMod 7), 1] : Poly 7), 5) : Fac 7)) ∧
    fmpz_mod_poly_push_roots (p := 7) defaultSplit 3 5 [1, 0, 1] =
      fmpz_mod_poly_push_roots (p := 7) (fun g => (g, g)) 99 5 [1, 0, 1] ∧
    ∃ out, fmpz_mod_poly_push_roots (p := 7) defaultSplit 3 5 [1, 0, 1] =
        some out ∧
      (∀ r : ZMod 7,
        (r ∈ out.map fun ge => rootOf ge.1) ↔ evalL r [1, 0, 1] = 0) ∧
      (out.map fun ge => rootOf ge.1).Nodup ∧
      ∀ ge ∈ out, ge.2 = 5 ∧ ge.1.length = 2 ∧ MonicL ge.1 := by
  haveI : Fact (Nat.Prime 7) := ⟨by norm_num⟩
  exact c4_tiny_field defaultSplit (fun g => (g, g)) 3 99 5 (by norm_num)
    (by decide) (by decide)

/-- C5.  For p >= 10 with zero constant term, the engine appends the root 0
(the factor x, stored [0, 1]) exactly once with the caller-supplied
exponent, strips x^k for the maximal k with x^k dividing f (so the reduced
polynomial has nonzero constant term), and continues on the reduced f. -/
theorem c5_zero_root_strip [Fact p.Prime] (split : Poly p → Poly p × Poly p)
    (halfp mult : ℕ) {f : Poly p} (hten : ¬p < 10) (hn : Normalized f)
    (hm : MonicL f) (hlen : 2 ≤ f.length) (hz : f.headI = 0) :
    1 ≤ (f.takeWhile fun c => decide (c = 0)).length ∧
    (f.takeWhile fun c => decide (c = 0)).length < f.length ∧
    (f.drop (f.takeWhile fun c => decide (c = 0)).length).headI ≠ 0 ∧
    (X : Polynomial (ZMod p)) ^
        (f.takeWhile fun c => decide (c = 0)).length ∣ toP f ∧
    ¬((X : Polynomial (ZMod p)) ^
        ((f.takeWhile fun c => decide (c = 0)).length + 1) ∣ toP f) ∧
    fmpz_mod_poly_push_roots split halfp mult f =
      (pushPost split halfp mult
          (f.drop (f.takeWhile fun c => decide (c = 0)).length)).map
        fun out => (([0, 1], mult) : Fac p) :: out := by
  have hfne : f ≠ [] := by
    intro h
    rw [h] at hlen
    simp at hlen
  set k := (f.takeWhile fun c => decide (c = 0)).length with hk
  have hkdrop : f.drop k ≠ [] := by
    intro hdz
    have hts := toP_strip f
    rw [← hk, hdz, toP_nil, mul_zero] at hts
    exact toP_ne_zero hn hfne hts
  have hklt : k < f.length := by
    by_contra hcon
    exact hkdrop (List.drop_eq_nil_of_le (Nat.le_of_not_lt hcon))
  have hk1 : 1 ≤ k := by
    cases f with
    | nil => exact absurd rfl hfne
    | cons c t =>
      have hc0 : c = 0 := hz
      rw [hk, List.takeWhile_cons]
      simp [hc0]
  have hc1 : (f.drop k).headI ≠ 0 := by
    rw [hk, drop_takeWhile]
    apply headI_dropWhile_ne
    rw [← drop_takeWhile, ← hk]
    exact hkdrop
  have hdvd : (X : Polynomial (ZMod p)) ^ k ∣ toP f :=
    ⟨toP (f.drop k), by rw [toP_strip f, ← hk]⟩
  refine ⟨hk1, hklt, hc1, hdvd, ?_, ?_⟩
  · intro hcon
    have hts : toP f = X ^ k * toP (f.drop k) := by
      rw [toP_strip f, ← hk]
    rw [hts, pow_succ] at hcon
    have hXk : (X : Polynomial (ZMod p)) ^ k ≠ 0 :=
      pow_ne_zero _ X_ne_zero
    have hXdvd : (X : Polynomial (ZMod p)) ∣ toP (f.drop k) :=
      (mul_dvd_mul_iff_left hXk).mp hcon
    obtain ⟨w, hw⟩ := hXdvd
    have hev : evalL 0 (f.drop k) = 0 := by
      rw [evalL_toP, hw, eval_mul, eval_X, zero_mul]
    rw [evalL_zero_eq_headI] at hev
    exact hc1 hev
  · rw [fmpz_mod_poly_push_roots_strip split halfp mult f hten hz, ← hk]

/-- C5 witness: the theorem applied to f = x over Z/13 (Scenario C of the
spec: the only root is 0, reported once). -/
theorem c5_zero_root_strip_w :
    1 ≤ (([0, 1] : Poly 13).takeWhile fun c => decide (c = 0)).length ∧
    (([0, 1] : Poly 13).takeWhile fun c => decide (c = 0)).length <
      ([0, 1] : Poly 13).length ∧
    (([0, 1] : Poly 13).drop
        (([0, 1] : Poly 13).takeWhile fun c => decide (c = 0)).length).headI ≠
      0 ∧
    (X : Polynomial (ZMod 13)) ^
        (([0, 1] : Poly 13).takeWhile fun c => decide (c = 0)).length ∣
      toP [0, 1] ∧
    ¬((X : Polynomial (ZMod 13)) ^
        ((([0, 1] : Poly 13).takeWhile fun c => decide (c = 0)).length + 1) ∣
      toP [0, 1]) ∧
    fmpz_mod_poly_push_roots (p := 13) defaultSplit 6 1 [0, 1] =
      (pushPost (p := 13) defaultSplit 6 1
          (([0, 1] : Poly 13).drop
            (([0, 1] : Poly 13).takeWhile fun c => decide (c = 0)).length)).map
        fun out => (([0, 1], 1) : Fac 13) :: out := by
  have hten : ¬(13 : ℕ) < 10 := by norm_num
  have hn : Normalized ([0, 1] : Poly 13) := by decide
  have hm : MonicL ([0, 1] : Poly 13) := by decide
  have hlen : 2 ≤ ([0, 1] : Poly 13).length := by decide
  have hz : ([0, 1] : Poly 13).headI = 0 := by decide
  haveI : Fact (Nat.Prime 13) := ⟨by norm_num⟩
  exact c5_zero_root_strip defaultSplit 6 1 hten hn hm hlen hz

/-- C6.  In the general case (degree at least 2, p >= 10, nonzero constant
term): with t = x^halfp mod f, the engine computes a = gcd(t - 1, f) and
b = gcd((t - 1) + 2, f), swaps them if needed so that deg a >= deg b, seeds
the drain loop with the single slot [a] exactly when deg b = 0 and with the
two slots [a, b] otherwise, and hands the seeded stack to the drain loop;
the computed t is indeed the remainder of x^halfp modulo f. -/
theorem c6_initial_split [Fact p.Prime] (split : Poly p → Poly p × Poly p)
    (halfp mult : ℕ) {f : Poly p} (hten : ¬p < 10) (hn : Normalized f)
    (hlen : 3 ≤ f.length) (hz : ¬f.headI = 0) :
    ∃ a b : Poly p,
      ({a, b} : Set (Poly p)) =
        {pgcd (polySub (xPowMod halfp f) [1]) f,
         pgcd (polyAdd (polySub (xPowMod halfp f) [1]) [2]) f} ∧
      degI b ≤ degI a ∧
      generalSeed halfp f = (if 0 < degI b then [b, a] else [a]) ∧
      fmpz_mod_poly_push_roots split halfp mult f =
        drain split mult (4 * f.length + 4) (generalSeed halfp f) ∧
      ∃ q : Polynomial (ZMod p),
        (X : Polynomial (ZMod p)) ^ halfp = q * toP f + toP (xPowMod halfp f) ∧
        (xPowMod halfp f).length < f.length := by
  have hfne : f ≠ [] := by
    intro h
    rw [h] at hlen
    simp at hlen
  obtain ⟨a, b, hset, hdeg, hgs⟩ := generalSeed_cases halfp f
  obtain ⟨hnt, hlt, q, hq⟩ := xPowMod_spec hn hfne halfp
  refine ⟨a, b, hset, hdeg, hgs, ?_, q, hq, hlt⟩
  rw [fmpz_mod_poly_push_roots_plain split halfp mult f hten hz]
  unfold pushPost
  rw [if_neg (by omega)]

/-- C6 witness: the theorem applied to f = x^2 - 1 over Z/11 with
halfp = 5 = (11 - 1)/2. -/
theorem c6_initial_split_w :
    ∃ a b : Poly 11,
      ({a, b} : Set (Poly 11)) =
        {pgcd (polySub (xPowMod 5 [10, 0, 1]) [1]) [10, 0, 1],
         pgcd (polyAdd (polySub (xPowMod 5 [10, 0, 1]) [1]) [2]) [10, 0, 1]} ∧
      degI b ≤ degI a ∧
      generalSeed 5 [10, 0, 1] = (if 0 < degI b then [b, a] else [a]) ∧
      fmpz_mod_poly_push_roots (p := 11) defaultSplit 5 1 [10, 0, 1] =
        drain defaultSplit 1 (4 * ([10, 0, 1] : Poly 11).length + 4)
          (generalSeed 5 [10, 0, 1]) ∧
      ∃ q : Polynomial (ZMod 11),
        (X : Polynomial (ZMod 11)) ^ 5 =
          q * toP [10, 0, 1] + toP (xPowMod 5 [10, 0, 1]) ∧
        (xPowMod 5 ([10, 0, 1] : Poly 11)).length <
          ([10, 0, 1] : Poly 11).length := by
  have hten : ¬(11 : ℕ) < 10 := by norm_num
  have hn : Normalized ([10, 0, 1] : Poly 11) := by decide
  have hlen : 3 ≤ ([10, 0, 1] : Poly 11).length := by decide
  have hz : ¬([10, 0, 1] : Poly 11).headI = 0 := by decide
  haveI : Fact (Nat.Prime 11) := ⟨by norm_num⟩
  exact c6_initial_split defaultSplit 5 1 hten hn hlen hz

end FlintRoots
